import Mathlib

/-
  Verification of the memory-management layer of the RustOs-x86 kernel
  (shallow embedding of src/src/allocator/bump.rs,
  src/src/allocator/linked_list.rs and src/src/memory.rs).

  Machine integers (`usize`, 64-bit) are modelled as `Nat` with the explicit
  bound `USIZE = 2 ^ 64` wherever overflow matters; fallible operations
  (checked arithmetic, assertions, `expect`) return `Option`, with `none`
  standing for the failing outcome (overflow / fatal assertion).  The
  `Locked<...>` mutual-exclusion wrapper gives exclusive access to the
  wrapped allocator state; in this sequential model it is rendered as
  explicit state passing (each operation consumes and returns the state).
-/

set_option maxHeartbeats 1000000

namespace RustOs

/-- `usize` on the x86-64 target is 64 bits wide; `USIZE` is the first
unrepresentable value. -/
def USIZE : Nat := 2 ^ 64

/-- Modelled from the spec: the shared alignment helper `align_up` lives in the
allocator module root (`src/allocator.rs`), which is not among the provided
source files; the spec (sections 2 and 4.4) describes it as rounding an address
up to the nearest multiple of `align`.  `align_up addr align` is the least
multiple of `align` that is `≥ addr` (for `align > 0`). -/
def align_up (addr align : Nat) : Nat :=
  (addr + align - 1) / align * align

/-- `align_up` returns a multiple of the alignment. -/
theorem align_up_dvd (addr align : Nat) : align ∣ align_up addr align :=
  ⟨(addr + align - 1) / align, by unfold align_up; ring⟩

/-- `align_up` rounds up: the result is at least the argument. -/
theorem le_align_up (addr : Nat) {align : Nat} (h : 0 < align) :
    addr ≤ align_up addr align := by
  unfold align_up
  have hdm := Nat.div_add_mod (addr + align - 1) align
  have hlt : (addr + align - 1) % align < align := Nat.mod_lt _ h
  have hc : align * ((addr + align - 1) / align)
      = (addr + align - 1) / align * align := Nat.mul_comm _ _
  omega

/-- `align_up` overshoots by less than one alignment unit. -/
theorem align_up_lt (addr : Nat) {align : Nat} (h : 0 < align) :
    align_up addr align < addr + align := by
  unfold align_up
  have := Nat.div_mul_le_self (addr + align - 1) align
  omega

/-- An already-aligned address is a fixed point of `align_up`. -/
theorem align_up_eq_self {addr align : Nat} (h0 : 0 < align) (h : align ∣ addr) :
    align_up addr align = addr := by
  rcases le_or_lt (align_up addr align) addr with hle | hlt
  · exact Nat.le_antisymm hle (le_align_up addr h0)
  · exfalso
    have hdvd : align ∣ align_up addr align - addr :=
      Nat.dvd_sub' (align_up_dvd addr align) h
    have hpos : 0 < align_up addr align - addr := by omega
    have := Nat.le_of_dvd hpos hdvd
    have := align_up_lt addr h0
    omega

/-- Model of Rust `usize::checked_add`: `some` of the sum when it is
representable in 64 bits, `none` on overflow. -/
def checked_add (a b : Nat) : Option Nat :=
  if a + b < USIZE then some (a + b) else none

/-! ## Bump allocator (src/src/allocator/bump.rs) -/

/-- State of `BumpAllocator` (bump.rs lines 5-10). -/
structure BumpAllocator where
  heap_start : Nat
  heap_end : Nat
  next : Nat
  allocations : Nat
deriving DecidableEq

namespace BumpAllocator

/-- `BumpAllocator::new` (bump.rs lines 13-20). -/
def new : BumpAllocator :=
  { heap_start := 0, heap_end := 0, next := 0, allocations := 0 }

/-- `BumpAllocator::init` (bump.rs lines 32-36): sets the heap bounds and the
cursor, leaving the allocation count as it was. -/
def init (s : BumpAllocator) (hs hsize : Nat) : BumpAllocator :=
  { s with heap_start := hs, heap_end := hs + hsize, next := hs }

/-- `<Locked<BumpAllocator> as GlobalAlloc>::alloc` (bump.rs lines 40-56).
The lock acquisition is modelled by taking the state as input and returning
the (possibly updated) state alongside the result; `none` as first component
is the `ptr::null_mut()` failure sentinel. -/
def alloc (s : BumpAllocator) (size align : Nat) : Option Nat × BumpAllocator :=
  match checked_add (align_up s.next align) size with
  | none => (none, s)
  | some alloc_end =>
    if alloc_end > s.heap_end then
      (none, s)
    else
      (some (align_up s.next align),
       { s with next := alloc_end, allocations := s.allocations + 1 })

/-- `<Locked<BumpAllocator> as GlobalAlloc>::dealloc` (bump.rs lines 58-65).
The pointer and layout arguments are ignored by the code.  The decrement
`allocations -= 1` is unchecked in the source; with the count at zero it
underflows the unsigned counter, a fatal arithmetic error under checked
(debug) semantics, modelled here as `none`. -/
def dealloc (s : BumpAllocator) (_p _sz _al : Nat) : Option BumpAllocator :=
  match s.allocations with
  | 0 => none
  | n + 1 =>
    let s' : BumpAllocator := { s with allocations := n }
    some (if s'.allocations = 0 then { s' with next := s'.heap_start } else s')

end BumpAllocator

/-- Running a list of `dealloc` calls (pointer, size, align) in sequence,
propagating the fatal-underflow outcome. -/
def deallocList (s : BumpAllocator) : List (Nat × Nat × Nat) → Option BumpAllocator
  | [] => some s
  | c :: rest =>
    match BumpAllocator.dealloc s c.1 c.2.1 c.2.2 with
    | none => none
    | some s' => deallocList s' rest

/-- Closed form of the bump allocator's `alloc`: failure (with the state left
untouched) exactly when the end address overflows `usize` or exceeds
`heap_end`; otherwise the cursor moves to the end, the count is incremented
and the rounded start is returned. -/
theorem bump_alloc_eq (s : BumpAllocator) (size align : Nat) :
    BumpAllocator.alloc s size align =
      if USIZE ≤ align_up s.next align + size ∨
          s.heap_end < align_up s.next align + size
      then (none, s)
      else (some (align_up s.next align),
            { s with next := align_up s.next align + size,
                     allocations := s.allocations + 1 }) := by
  unfold BumpAllocator.alloc checked_add
  split
  · rename_i heq
    split at heq
    · exact absurd heq (by simp)
    · rename_i hge
      rw [if_pos (Or.inl (by omega))]
  · rename_i e heq
    split at heq
    · rename_i hlt
      injection heq with h
      subst h
      split
      · rename_i hgt
        rw [if_pos (Or.inr hgt)]
      · rename_i hle
        rw [if_neg (by omega :
          ¬(USIZE ≤ align_up s.next align + size ∨
            s.heap_end < align_up s.next align + size))]
    · exact absurd heq (by simp)

/-- Closed form of the bump allocator's `dealloc`: the count is decremented
unconditionally (`none`, i.e. a fatal unsigned underflow, at count zero), and
the cursor is reset to `heap_start` exactly when the count reaches zero. -/
theorem bump_dealloc_eq (s : BumpAllocator) (p sz al : Nat) :
    BumpAllocator.dealloc s p sz al =
      if s.allocations = 0 then none
      else some { s with allocations := s.allocations - 1,
                         next := if s.allocations = 1 then s.heap_start
                                 else s.next } := by
  unfold BumpAllocator.dealloc
  split
  · rename_i heq
    rw [if_pos heq]
  · rename_i n heq
    rw [heq]
    dsimp only
    rw [if_neg (Nat.succ_ne_zero n)]
    by_cases hn : n = 0
    · subst hn
      simp
    · rw [if_neg hn, if_neg (by omega : ¬n + 1 = 1)]
      simp [hn]

/-- Iterated `dealloc`: independent of the pointers passed, the count drops by
the number of calls and the cursor resets to `heap_start` exactly when the
count reaches zero. -/
theorem deallocList_eq (ptrs : List (Nat × Nat × Nat)) :
    ∀ s : BumpAllocator, ptrs.length ≤ s.allocations →
    deallocList s ptrs =
      some { s with allocations := s.allocations - ptrs.length,
                    next := if ptrs.length = s.allocations ∧ ptrs.length ≠ 0
                            then s.heap_start else s.next } := by
  induction ptrs with
  | nil =>
    intro s h
    simp [deallocList]
  | cons c rest ih =>
    intro s h
    simp only [deallocList]
    rw [bump_dealloc_eq]
    have hpos : ¬s.allocations = 0 := by
      simp only [List.length_cons] at h
      omega
    rw [if_neg hpos]
    dsimp only
    rw [ih _ (by simp only [List.length_cons] at h; dsimp only; omega)]
    simp only [List.length_cons, Option.some.injEq, BumpAllocator.mk.injEq]
    simp only [List.length_cons] at h
    refine ⟨trivial, trivial, ?_, by omega⟩
    split_ifs <;> first | rfl | omega

/-- C4: for every bump-allocator state and request `(size, align)` with a
positive alignment (every power of two is positive), `alloc` rounds the
cursor `next` up to the nearest multiple of `align` (the rounded start is a
multiple of `align`, at least `next`, and less than `next + align`), and
computes the end with overflow checking: if the addition overflows the 64-bit
word or the end exceeds `heap_end`, it returns the null failure sentinel and
leaves `next` and `allocations` unchanged; otherwise it sets `next` to the
end, increments the outstanding-allocation count by one, and returns the
rounded start. -/
theorem bump_alloc_correct (s : BumpAllocator) (size align : Nat)
    (halign : 0 < align) :
    (BumpAllocator.alloc s size align =
      if USIZE ≤ align_up s.next align + size ∨
          s.heap_end < align_up s.next align + size
      then (none, s)
      else (some (align_up s.next align),
            { s with next := align_up s.next align + size,
                     allocations := s.allocations + 1 })) ∧
    align ∣ align_up s.next align ∧
    s.next ≤ align_up s.next align ∧
    align_up s.next align < s.next + align :=
  ⟨bump_alloc_eq s size align, align_up_dvd _ _, le_align_up _ halign,
    align_up_lt _ halign⟩

/-- Witness for C4 at a concrete state and request. -/
theorem bump_alloc_correct_witness :
    (0 : Nat) < 8 ∧
    ((BumpAllocator.alloc ⟨1000, 1100, 1001, 0⟩ 10 8 =
        (some 1008, ⟨1000, 1100, 1018, 1⟩)) ∧
      (8 : Nat) ∣ 1008 ∧ (1001 : Nat) ≤ 1008 ∧ (1008 : Nat) < 1001 + 8) :=
  ⟨by decide, bump_alloc_correct ⟨1000, 1100, 1001, 0⟩ 10 8 (by decide)⟩

/-- C5: after any number of successful allocations has left the outstanding
count at `s.allocations`, running any list of `dealloc` calls no longer than
that count (each passing an arbitrary pointer, size and alignment) decrements
the count once per call, and the cursor `next` is reset to `heap_start`
exactly when (iff) the count reaches zero — regardless of which pointers are
freed or in what order; until then `next` is unchanged by `dealloc`. -/
theorem bump_dealloc_any_order (s : BumpAllocator)
    (ptrs : List (Nat × Nat × Nat)) (h : ptrs.length ≤ s.allocations) :
    deallocList s ptrs =
      some { s with allocations := s.allocations - ptrs.length,
                    next := if ptrs.length = s.allocations ∧ ptrs.length ≠ 0
                            then s.heap_start else s.next } :=
  deallocList_eq ptrs s h

/-- Witness for C5: two outstanding allocations, two deallocations of
arbitrary distinct pointers; afterwards the count is zero and the cursor is
back at `heap_start`. -/
theorem bump_dealloc_any_order_witness :
    ([((7, 1, 1) : Nat × Nat × Nat), (5, 2, 4)].length ≤ 2) ∧
    deallocList ⟨1000, 1100, 1018, 2⟩ [(7, 1, 1), (5, 2, 4)] =
      some ⟨1000, 1100, 1000, 0⟩ :=
  ⟨by decide,
    bump_dealloc_any_order ⟨1000, 1100, 1018, 2⟩ [(7, 1, 1), (5, 2, 4)]
      (by decide)⟩

/-- C10: the bump allocator's `dealloc` decrements the count unconditionally:
at count zero the subtraction underflows the unsigned counter (the fatal
`none` outcome under checked arithmetic) — it is neither a no-op nor a
failure sentinel — so correct behaviour implicitly requires at least one
outstanding allocation; with a positive count it behaves normally. -/
theorem bump_dealloc_zero_underflow (s : BumpAllocator) (p sz al : Nat) :
    BumpAllocator.dealloc s p sz al =
      if s.allocations = 0 then none
      else some { s with allocations := s.allocations - 1,
                         next := if s.allocations = 1 then s.heap_start
                                 else s.next } :=
  bump_dealloc_eq s p sz al

/-! ## Free-list allocator (src/src/allocator/linked_list.rs)

A `ListNode` lives in place at the start of the free bytes it describes;
its in-memory address is made an explicit field `addr` of the model.  On the
x86-64 target `ListNode { size: usize, next: Option<&'static mut ListNode> }`
occupies two 8-byte words (the reference option is niche-optimized), so
`size_of::<ListNode>() = 16` and `align_of::<ListNode>() = 8`. -/

/-- `mem::size_of::<ListNode>()`. -/
def listNodeSize : Nat := 16

/-- `mem::align_of::<ListNode>()`. -/
def listNodeAlign : Nat := 8

/-- A free-list node: its own address and the size of the free region it
heads (linked_list.rs lines 7-10). -/
structure ListNode where
  addr : Nat
  size : Nat
deriving DecidableEq

/-- `ListNode::start_addr` (linked_list.rs lines 32-34). -/
def ListNode.start_addr (n : ListNode) : Nat := n.addr

/-- `ListNode::end_addr` (linked_list.rs lines 42-44). -/
def ListNode.end_addr (n : ListNode) : Nat := n.addr + n.size

/-- `LinkedListAllocator` (linked_list.rs lines 47-49): the chain of free
nodes hanging off the sentinel `head`, in list order. -/
structure LinkedListAllocator where
  nodes : List ListNode
deriving DecidableEq

namespace LinkedListAllocator

/-- `LinkedListAllocator::new` (linked_list.rs lines 58-62). -/
def new : LinkedListAllocator := ⟨[]⟩

/-- `LinkedListAllocator::add_free_region` (linked_list.rs lines 90-101):
asserts that the region can host a node (start aligned to the node
alignment, size at least the node size) — a failed assertion is the fatal
outcome `none` — and pushes the new node at the head of the list. -/
def add_free_region (a : LinkedListAllocator) (addr size : Nat) :
    Option LinkedListAllocator :=
  if align_up addr listNodeAlign = addr ∧ listNodeSize ≤ size then
    some ⟨⟨addr, size⟩ :: a.nodes⟩
  else
    none

/-- `LinkedListAllocator::init` (linked_list.rs lines 75-77). -/
def init (a : LinkedListAllocator) (heap_start heap_size : Nat) :
    Option LinkedListAllocator :=
  a.add_free_region heap_start heap_size

/-- `LinkedListAllocator::alloc_from_region` (linked_list.rs lines 137-151):
the first-fit test on one region.  `none` is `Err(())`: the region is too
small, the aligned end overflows, or the leftover would be a fragment
smaller than a node header. -/
def alloc_from_region (r : ListNode) (size align : Nat) : Option Nat :=
  match checked_add (align_up r.start_addr align) size with
  | none => none
  | some alloc_end =>
    if alloc_end > r.end_addr then
      none
    else if r.end_addr - alloc_end > 0 ∧ r.end_addr - alloc_end < listNodeSize then
      none
    else
      some (align_up r.start_addr align)

/-- The list traversal inside `LinkedListAllocator::find_region`
(linked_list.rs lines 110-124): scan the nodes in order; on the first node
passing the fit test, unlink it (the remaining nodes keep their order) and
return it with the allocation start address. -/
def find_region_go (size align : Nat) :
    List ListNode → Option (ListNode × Nat × List ListNode)
  | [] => none
  | r :: rest =>
    match alloc_from_region r size align with
    | some alloc_start => some (r, alloc_start, rest)
    | none =>
      match find_region_go size align rest with
      | some (rf, sf, restf) => some (rf, sf, r :: restf)
      | none => none

/-- `LinkedListAllocator::find_region` (linked_list.rs lines 110-124). -/
def find_region (a : LinkedListAllocator) (size align : Nat) :
    Option (ListNode × Nat × LinkedListAllocator) :=
  match find_region_go size align a.nodes with
  | some (r, s, rest) => some (r, s, ⟨rest⟩)
  | none => none

/-- `LinkedListAllocator::size_align` (linked_list.rs lines 153-160): raise
the alignment to at least the node alignment (`Layout::align_to`), pad the
size to a multiple of the resulting alignment (`Layout::pad_to_align`), and
raise it to at least the node size.  For layouts representable on the
target the `align_to(8)` adjustment cannot fail, so it is modelled as
total. -/
def size_align (size align : Nat) : Nat × Nat :=
  (max (align_up size (max align listNodeAlign)) listNodeSize,
   max align listNodeAlign)

/-- The body of `<Locked<LinkedListAllocator> as GlobalAlloc>::alloc`
(linked_list.rs lines 164-180) after the `size_align` adjustment.  The
outer `Option` models the fatal outcomes: `none` is a `panic` — either the
`expect("overflow")` on re-adding the end address, or a failed assertion in
`add_free_region` when re-inserting the leftover.  The inner `Option Nat`
is the returned pointer, `none` being `ptr::null_mut()`. -/
def alloc_core (a : LinkedListAllocator) (size align : Nat) :
    Option (Option Nat × LinkedListAllocator) :=
  match a.find_region size align with
  | none => some (none, a)
  | some (region, alloc_start, a1) =>
    match checked_add alloc_start size with
    | none => none
    | some alloc_end =>
      if region.end_addr - alloc_end > 0 then
        match a1.add_free_region alloc_end (region.end_addr - alloc_end) with
        | none => none
        | some a2 => some (some alloc_start, a2)
      else
        some (some alloc_start, a1)

/-- `<Locked<LinkedListAllocator> as GlobalAlloc>::alloc` (linked_list.rs
lines 164-180): adjust the layout, then run the first-fit allocation. -/
def alloc (a : LinkedListAllocator) (size align : Nat) :
    Option (Option Nat × LinkedListAllocator) :=
  alloc_core a (size_align size align).1 (size_align size align).2

/-- `<Locked<LinkedListAllocator> as GlobalAlloc>::dealloc` (linked_list.rs
lines 182-185): normalize the size and push the freed region onto the head
of the free list; `none` is the fatal assertion failure inside
`add_free_region`. -/
def dealloc (a : LinkedListAllocator) (p size align : Nat) :
    Option LinkedListAllocator :=
  a.add_free_region p (size_align size align).1

end LinkedListAllocator

/-- The spec's first-fit test for one node (spec section 4.5): an aligned
start address within the node leaves room for `size` bytes without exceeding
the node's end (and without overflowing the machine word), and the leftover
after the allocation is either zero or at least the header size. -/
def Fits (r : ListNode) (size align : Nat) : Prop :=
  align_up r.start_addr align + size < USIZE ∧
  align_up r.start_addr align + size ≤ r.end_addr ∧
  (r.end_addr - (align_up r.start_addr align + size) = 0 ∨
   listNodeSize ≤ r.end_addr - (align_up r.start_addr align + size))

instance (r : ListNode) (size align : Nat) : Decidable (Fits r size align) := by
  unfold Fits
  infer_instance

/-- `alloc_from_region` decides exactly the spec's first-fit test, returning
the aligned start address. -/
theorem alloc_from_region_eq (r : ListNode) (size align : Nat) :
    LinkedListAllocator.alloc_from_region r size align =
      if Fits r size align then some (align_up r.start_addr align)
      else none := by
  unfold LinkedListAllocator.alloc_from_region checked_add
  by_cases h1 : align_up r.start_addr align + size < USIZE
  · rw [if_pos h1]
    dsimp only
    by_cases h2 : align_up r.start_addr align + size > r.end_addr
    · rw [if_pos h2, if_neg (by unfold Fits; omega)]
    · rw [if_neg h2]
      by_cases h3 : r.end_addr - (align_up r.start_addr align + size) > 0 ∧
          r.end_addr - (align_up r.start_addr align + size) < listNodeSize
      · rw [if_pos h3, if_neg (by unfold Fits; omega)]
      · rw [if_neg h3, if_pos (by unfold Fits; omega)]
  · rw [if_neg h1]
    dsimp only
    rw [if_neg (by unfold Fits; omega)]

/-- A (Rust `Layout`-valid) alignment: a power of two. -/
def isPow2 (n : Nat) : Prop := ∃ k, n = 2 ^ k

/-- Between powers of two, order gives divisibility. -/
theorem isPow2_dvd_of_le {a b : Nat} (ha : isPow2 a) (hb : isPow2 b)
    (h : a ≤ b) : a ∣ b := by
  obtain ⟨i, rfl⟩ := ha
  obtain ⟨j, rfl⟩ := hb
  exact pow_dvd_pow 2 ((Nat.pow_le_pow_iff_right (by norm_num)).mp h)

/-- Powers of two are positive. -/
theorem isPow2_pos {a : Nat} (h : isPow2 a) : 0 < a := by
  obtain ⟨i, rfl⟩ := h
  exact Nat.pos_pow_of_pos i (by norm_num)

/-- Shape of the adjusted request produced by `size_align` for a valid
layout: the alignment keeps dividing the result, both components are
multiples of the node alignment, the size is at least the node size and at
least the requested size. -/
theorem size_align_spec (size align : Nat) (h : isPow2 align) :
    listNodeAlign ∣ (LinkedListAllocator.size_align size align).2 ∧
    align ∣ (LinkedListAllocator.size_align size align).2 ∧
    0 < (LinkedListAllocator.size_align size align).2 ∧
    listNodeAlign ∣ (LinkedListAllocator.size_align size align).1 ∧
    listNodeSize ≤ (LinkedListAllocator.size_align size align).1 ∧
    size ≤ (LinkedListAllocator.size_align size align).1 := by
  have h8 : isPow2 listNodeAlign := ⟨3, rfl⟩
  have hA8 : listNodeAlign ∣ max align listNodeAlign := by
    rcases Nat.le_total align listNodeAlign with hle | hle
    · rw [Nat.max_eq_right hle]
    · exact Nat.dvd_trans (isPow2_dvd_of_le h8 h hle) (Dvd.intro 1 (by omega))
  have hAa : align ∣ max align listNodeAlign := by
    rcases Nat.le_total align listNodeAlign with hle | hle
    · rw [Nat.max_eq_right hle]
      exact isPow2_dvd_of_le h h8 hle
    · rw [Nat.max_eq_left hle]
  have hApos : 0 < max align listNodeAlign := by
    have : (0:Nat) < listNodeAlign := by decide
    omega
  have hS8 : listNodeAlign ∣ max (align_up size (max align listNodeAlign)) listNodeSize := by
    rcases Nat.le_total (align_up size (max align listNodeAlign)) listNodeSize with hle | hle
    · rw [Nat.max_eq_right hle]
      decide
    · rw [Nat.max_eq_left hle]
      exact Nat.dvd_trans hA8 (align_up_dvd _ _)
  refine ⟨hA8, hAa, hApos, hS8, ?_, ?_⟩
  · exact Nat.le_max_right _ _
  · exact Nat.le_trans (le_align_up size hApos) (Nat.le_max_left _ _)

/-- If no node passes the fit test the scan comes back empty. -/
theorem find_region_go_eq_none (size align : Nat) {l : List ListNode}
    (h : ∀ r ∈ l, ¬ Fits r size align) :
    LinkedListAllocator.find_region_go size align l = none := by
  induction l with
  | nil => rfl
  | cons r rest ih =>
    unfold LinkedListAllocator.find_region_go
    rw [alloc_from_region_eq, if_neg (h r (List.mem_cons_self r rest))]
    rw [ih (fun x hx => h x (List.mem_cons_of_mem r hx))]

/-- If the scan comes back empty, no node passes the fit test. -/
theorem find_region_go_of_eq_none (size align : Nat) :
    ∀ {l : List ListNode},
      LinkedListAllocator.find_region_go size align l = none →
      ∀ r ∈ l, ¬ Fits r size align := by
  intro l
  induction l with
  | nil =>
    intro _ r hr
    cases hr
  | cons x xs ih =>
    intro h r hr
    unfold LinkedListAllocator.find_region_go at h
    rw [alloc_from_region_eq] at h
    by_cases hf : Fits x size align
    · rw [if_pos hf] at h
      cases h
    · rw [if_neg hf] at h
      cases hg : LinkedListAllocator.find_region_go size align xs with
      | some v =>
        obtain ⟨a, b, c⟩ := v
        rw [hg] at h
        cases h
      | none =>
        rcases List.mem_cons.mp hr with rfl | hr2
        · exact hf
        · exact ih hg r hr2

/-- The scan returns the first node (in list order) passing the fit test,
with the aligned start address, and unlinks exactly that node. -/
theorem find_region_go_first_fit (size align : Nat) (l1 : List ListNode)
    (r : ListNode) (l2 : List ListNode)
    (h1 : ∀ x ∈ l1, ¬ Fits x size align) (h2 : Fits r size align) :
    LinkedListAllocator.find_region_go size align (l1 ++ r :: l2) =
      some (r, align_up r.start_addr align, l1 ++ l2) := by
  induction l1 with
  | nil =>
    simp only [List.nil_append]
    unfold LinkedListAllocator.find_region_go
    rw [alloc_from_region_eq, if_pos h2]
  | cons x xs ih =>
    simp only [List.cons_append]
    unfold LinkedListAllocator.find_region_go
    rw [alloc_from_region_eq, if_neg (h1 x (List.mem_cons_self x xs))]
    rw [ih (fun y hy => h1 y (List.mem_cons_of_mem x hy))]

/-- Every successful scan arises as in `find_region_go_first_fit`. -/
theorem find_region_go_eq_some (size align : Nat) :
    ∀ {l : List ListNode} {r : ListNode} {s : Nat} {rest : List ListNode},
      LinkedListAllocator.find_region_go size align l = some (r, s, rest) →
      ∃ l1 l2, l = l1 ++ r :: l2 ∧ rest = l1 ++ l2 ∧
        (∀ x ∈ l1, ¬ Fits x size align) ∧ Fits r size align ∧
        s = align_up r.start_addr align := by
  intro l
  induction l with
  | nil =>
    intro r s rest h
    cases h
  | cons x xs ih =>
    intro r s rest h
    unfold LinkedListAllocator.find_region_go at h
    rw [alloc_from_region_eq] at h
    by_cases hf : Fits x size align
    · rw [if_pos hf] at h
      injection h with h1
      injection h1 with ha hbc
      injection hbc with hb hc
      subst ha
      subst hb
      subst hc
      exact ⟨[], xs, by simp, by simp,
        fun y hy => absurd hy (List.not_mem_nil y), hf, rfl⟩
    · rw [if_neg hf] at h
      cases hg : LinkedListAllocator.find_region_go size align xs with
      | none =>
        rw [hg] at h
        cases h
      | some v =>
        obtain ⟨rf, sf, restf⟩ := v
        rw [hg] at h
        injection h with h1
        injection h1 with ha hbc
        injection hbc with hb hc
        subst ha
        subst hb
        subst hc
        obtain ⟨l1, l2, hl, hrest, hl1, hfit, hs⟩ := ih hg
        refine ⟨x :: l1, l2, by rw [hl]; simp, by rw [hrest]; simp, ?_, hfit, hs⟩
        intro y hy
        rcases List.mem_cons.mp hy with rfl | hy2
        · exact hf
        · exact hl1 y hy2

/-- When no node fits, `alloc_core` returns the null sentinel and leaves the
list untouched. -/
theorem alloc_core_of_no_fit {a : LinkedListAllocator} {size align : Nat}
    (h : ∀ r ∈ a.nodes, ¬ Fits r size align) :
    LinkedListAllocator.alloc_core a size align = some (none, a) := by
  unfold LinkedListAllocator.alloc_core LinkedListAllocator.find_region
  rw [find_region_go_eq_none size align h]

/-- When the nodes split as `l1 ++ r :: l2` with `r` the first fit,
`alloc_core` succeeds: it returns the aligned start inside `r`, unlinks `r`,
and — when the leftover is nonzero (hence at least a header) — re-inserts
the leftover as a new node at the head of the list.  The divisibility
hypotheses hold for every adjusted request (`size_align_spec`) and make the
re-insertion's assertions pass. -/
theorem alloc_core_success {a : LinkedListAllocator} {size align : Nat}
    {l1 l2 : List ListNode} {r : ListNode}
    (hnodes : a.nodes = l1 ++ r :: l2)
    (h1 : ∀ x ∈ l1, ¬ Fits x size align)
    (h2 : Fits r size align)
    (hal : listNodeAlign ∣ align) (hsz : listNodeAlign ∣ size) :
    LinkedListAllocator.alloc_core a size align =
      some (some (align_up r.start_addr align),
        ⟨if 0 < r.end_addr - (align_up r.start_addr align + size)
          then ⟨align_up r.start_addr align + size,
                r.end_addr - (align_up r.start_addr align + size)⟩ ::
               (l1 ++ l2)
          else l1 ++ l2⟩) := by
  obtain ⟨hov, hle, hex⟩ := h2
  have hdvd8 : listNodeAlign ∣ align_up r.start_addr align + size :=
    Nat.dvd_add (Nat.dvd_trans hal (align_up_dvd _ _)) hsz
  unfold LinkedListAllocator.alloc_core LinkedListAllocator.find_region
  rw [hnodes, find_region_go_first_fit size align l1 r l2 h1 ⟨hov, hle, hex⟩]
  dsimp only
  rw [show checked_add (align_up r.start_addr align) size
      = some (align_up r.start_addr align + size) from if_pos hov]
  dsimp only
  by_cases hexc : 0 < r.end_addr - (align_up r.start_addr align + size)
  · rw [if_pos (by omega : r.end_addr - (align_up r.start_addr align + size) > 0)]
    unfold LinkedListAllocator.add_free_region
    rw [if_pos ⟨align_up_eq_self (by decide) hdvd8, by unfold listNodeSize at hex ⊢; omega⟩]
    rw [if_pos hexc]
  · rw [if_neg (by omega : ¬r.end_addr - (align_up r.start_addr align + size) > 0)]
    rw [if_neg hexc]

/-- C2: for every state of the free-list allocator and every adjusted request
`(size, align)` (the shape produced by `size_align` for a valid layout:
both components multiples of the node alignment, alignment positive), the
first-fit allocation `alloc_core` returns the aligned start address inside
the first node, in list order, whose aligned start plus `size` does not
exceed the node's end (without overflowing the machine word) and whose
leftover is zero or at least the header size; that node is unlinked, and a
nonzero leftover is re-inserted as a new free node at the head of the list.
If no node passes the test, it returns the null failure sentinel. -/
theorem ll_alloc_core_first_fit (a : LinkedListAllocator) (size align : Nat)
    (hal : listNodeAlign ∣ align) (hsz : listNodeAlign ∣ size)
    (hpos : 0 < align) :
    ((∀ r ∈ a.nodes, ¬ Fits r size align) →
      LinkedListAllocator.alloc_core a size align = some (none, a)) ∧
    (∀ l1 r l2, a.nodes = l1 ++ r :: l2 →
      (∀ x ∈ l1, ¬ Fits x size align) → Fits r size align →
      r.start_addr ≤ align_up r.start_addr align ∧
      align ∣ align_up r.start_addr align ∧
      align_up r.start_addr align + size ≤ r.end_addr ∧
      LinkedListAllocator.alloc_core a size align =
        some (some (align_up r.start_addr align),
          ⟨if 0 < r.end_addr - (align_up r.start_addr align + size)
            then ⟨align_up r.start_addr align + size,
                  r.end_addr - (align_up r.start_addr align + size)⟩ ::
                 (l1 ++ l2)
            else l1 ++ l2⟩)) := by
  constructor
  · exact alloc_core_of_no_fit
  · intro l1 r l2 hnodes h1 h2
    exact ⟨le_align_up _ hpos, align_up_dvd _ _, h2.2.1,
      alloc_core_success hnodes h1 h2 hal hsz⟩

/-- Witness for C2: a two-node list in which the second node is the first
fit for an adjusted request of 32 bytes at alignment 8; the node is
unlinked, the leftover re-inserted at the head of the list. -/
theorem ll_alloc_core_first_fit_witness :
    (listNodeAlign ∣ 8 ∧ listNodeAlign ∣ 32 ∧ (0:Nat) < 8) ∧
    (LinkedListAllocator.alloc_core ⟨[⟨1024, 24⟩, ⟨2048, 64⟩]⟩ 32 8 =
      some (some 2048, ⟨[⟨2080, 32⟩, ⟨1024, 24⟩]⟩)) := by
  refine ⟨⟨by decide, by decide, by decide⟩, ?_⟩
  have h := (ll_alloc_core_first_fit ⟨[⟨1024, 24⟩, ⟨2048, 64⟩]⟩ 32 8
      (by decide) (by decide) (by decide)).2
      [⟨1024, 24⟩] ⟨2048, 64⟩ [] rfl (by decide) (by decide)
  exact h.2.2.2

/-- C8: an overflow of the 64-bit machine word during the alignment or size
computation is observably identical to "does not fit": the bump allocator
returns the null sentinel with the state unchanged; the free-list allocator
treats an overflowing node as unfit (returning the null sentinel when every
node overflows) and, for any valid (power-of-two-aligned) request, never
reaches a fatal panic — the `expect("overflow")` and the re-insertion
assertions are unreachable. -/
theorem alloc_overflow_is_failure :
    (∀ (s : BumpAllocator) (size align : Nat),
        USIZE ≤ align_up s.next align + size →
        BumpAllocator.alloc s size align = (none, s)) ∧
    (∀ (a : LinkedListAllocator) (size align : Nat), isPow2 align →
        LinkedListAllocator.alloc a size align ≠ none) ∧
    (∀ (a : LinkedListAllocator) (size align : Nat), isPow2 align →
        (∀ r ∈ a.nodes,
          USIZE ≤ align_up r.start_addr (LinkedListAllocator.size_align size align).2
            + (LinkedListAllocator.size_align size align).1) →
        LinkedListAllocator.alloc a size align = some (none, a)) := by
  refine ⟨?_, ?_, ?_⟩
  · intro s size align h
    rw [bump_alloc_eq, if_pos (Or.inl h)]
  · intro a size align hpow
    obtain ⟨h8A, hAa, hApos, h8S, h16, hszle⟩ := size_align_spec size align hpow
    unfold LinkedListAllocator.alloc
    cases hg : LinkedListAllocator.find_region_go
        (LinkedListAllocator.size_align size align).1
        (LinkedListAllocator.size_align size align).2 a.nodes with
    | none =>
      rw [alloc_core_of_no_fit (find_region_go_of_eq_none _ _ hg)]
      simp
    | some v =>
      obtain ⟨r, sv, rest⟩ := v
      obtain ⟨l1, l2, hl, hrest, hl1, hfit, hsv⟩ := find_region_go_eq_some _ _ hg
      rw [alloc_core_success hl hl1 hfit h8A h8S]
      simp
  · intro a size align hpow hover
    unfold LinkedListAllocator.alloc
    apply alloc_core_of_no_fit
    intro r hr hFits
    have := hover r hr
    have h1 := hFits.1
    omega

/-- Witness for C8: a bump request whose aligned end overflows 64 bits fails
with the sentinel; a valid free-list request never panics; a free-list
request overflowing on the only node fails with the sentinel. -/
theorem alloc_overflow_is_failure_witness :
    (BumpAllocator.alloc ⟨0, 100, 2 ^ 64 - 8, 0⟩ 16 8 =
      (none, ⟨0, 100, 2 ^ 64 - 8, 0⟩)) ∧
    (LinkedListAllocator.alloc ⟨[⟨1024, 64⟩]⟩ 16 8 ≠ none) ∧
    (LinkedListAllocator.alloc ⟨[⟨2 ^ 64 - 64, 64⟩]⟩ (2 ^ 64 - 32) 8 =
      some (none, ⟨[⟨2 ^ 64 - 64, 64⟩]⟩)) :=
  ⟨alloc_overflow_is_failure.1 ⟨0, 100, 2 ^ 64 - 8, 0⟩ 16 8 (by decide),
   alloc_overflow_is_failure.2.1 ⟨[⟨1024, 64⟩]⟩ 16 8 ⟨3, rfl⟩,
   alloc_overflow_is_failure.2.2 ⟨[⟨2 ^ 64 - 64, 64⟩]⟩ (2 ^ 64 - 32) 8 ⟨3, rfl⟩
     (by decide)⟩

/-- Being a power of two is decidable: the exponent, if any, is below `n + 1`. -/
instance isPow2_decidable : DecidablePred isPow2 := fun n =>
  decidable_of_iff ((List.range (n + 1)).any (fun k => n == 2 ^ k) = true)
    (by
      rw [List.any_eq_true]
      constructor
      · rintro ⟨k, _, hk⟩
        exact ⟨k, by simpa using hk⟩
      · rintro ⟨k, rfl⟩
        refine ⟨k, List.mem_range.mpr
          (Nat.lt_succ_of_le (Nat.le_of_lt (Nat.lt_two_pow k))), ?_⟩
        simp)

/-- A heap-interface call: an allocation request, or a deallocation of a
previously returned block together with the layout the caller passes. -/
inductive AllocOp
  | alloc (size align : Nat)
  | dealloc (addr size align : Nat)
deriving DecidableEq

/-- A ghost record of a live (not yet freed) allocation: the returned
address and the requested layout `(size, align)`. -/
abbrev Block := Nat × Nat × Nat

/-- One step of a free-list allocator trace.  The step is gated by the
caller obligations of the raw `GlobalAlloc` contract: layout alignments are
powers of two (`Layout`'s type invariant) and `dealloc` names a live block
with the layout it was allocated with.  Gate violations and fatal allocator
outcomes both yield `none`; a failed (null) allocation leaves the state
unchanged and the trace continues. -/
def ll_step (st : LinkedListAllocator × List Block) :
    AllocOp → Option (LinkedListAllocator × List Block)
  | .alloc size align =>
    if isPow2 align then
      match LinkedListAllocator.alloc st.1 size align with
      | none => none
      | some (none, a1) => some (a1, st.2)
      | some (some addr, a1) => some (a1, (addr, size, align) :: st.2)
    else none
  | .dealloc addr size align =>
    if isPow2 align ∧ (addr, size, align) ∈ st.2 then
      match LinkedListAllocator.dealloc st.1 addr size align with
      | none => none
      | some a1 => some (a1, st.2.erase (addr, size, align))
    else none

/-- Run a list of heap calls on the free-list allocator. -/
def ll_steps (st : LinkedListAllocator × List Block) :
    List AllocOp → Option (LinkedListAllocator × List Block)
  | [] => some st
  | op :: ops =>
    match ll_step st op with
    | none => none
    | some st1 => ll_steps st1 ops

/-- Initialize the free-list allocator over `[heap_start, heap_start +
heap_size)` and run a list of heap calls. -/
def ll_run (heap_start heap_size : Nat) (ops : List AllocOp) :
    Option (LinkedListAllocator × List Block) :=
  match LinkedListAllocator.init LinkedListAllocator.new heap_start heap_size with
  | none => none
  | some a => ll_steps (a, []) ops

/-- Two half-open intervals `(start, length)` do not overlap. -/
def Disjoint2 (i j : Nat × Nat) : Prop :=
  i.1 + i.2 ≤ j.1 ∨ j.1 + j.2 ≤ i.1

/-- `Disjoint2` is symmetric. -/
theorem disjoint2_symm : Symmetric Disjoint2 := by
  intro i j h
  unfold Disjoint2 at *
  omega

/-- A sub-interval inherits disjointness. -/
theorem disjoint2_sub {a b c d : Nat} {k : Nat × Nat} (h1 : c ≤ a)
    (h2 : a + b ≤ c + d) (h : Disjoint2 (c, d) k) : Disjoint2 (a, b) k := by
  unfold Disjoint2 at *
  dsimp only at *
  omega

/-- The interval of heap bytes a free node describes. -/
def nodeIv (r : ListNode) : Nat × Nat := (r.addr, r.size)

/-- The interval of heap bytes a live block occupies: its address together
with its adjusted size (the block was carved out at the adjusted size). -/
def blockIv (b : Block) : Nat × Nat :=
  (b.1, (LinkedListAllocator.size_align b.2.1 b.2.2).1)

/-- Invariant of a reachable free-list allocator state: every free node and
every live block lies inside the heap; free nodes can host their headers;
live blocks have valid layouts and header-aligned addresses; and all these
intervals are pairwise disjoint. -/
def LLInv (hs he : Nat) (a : LinkedListAllocator) (live : List Block) : Prop :=
  (∀ r ∈ a.nodes, hs ≤ r.addr ∧ r.addr + r.size ≤ he ∧
      listNodeAlign ∣ r.addr ∧ listNodeSize ≤ r.size) ∧
  (∀ b ∈ live, isPow2 b.2.2 ∧ hs ≤ b.1 ∧
      b.1 + (LinkedListAllocator.size_align b.2.1 b.2.2).1 ≤ he ∧
      listNodeAlign ∣ b.1) ∧
  List.Pairwise Disjoint2 (a.nodes.map nodeIv ++ live.map blockIv)

/-- Extracting the element in the middle of a pairwise-disjoint list: it is
disjoint from all the others, which stay pairwise disjoint. -/
theorem pairwise_middle {L1 L2 : List (Nat × Nat)} {x : Nat × Nat}
    (h : List.Pairwise Disjoint2 (L1 ++ x :: L2)) :
    (∀ y ∈ L1 ++ L2, Disjoint2 x y) ∧
      List.Pairwise Disjoint2 (L1 ++ L2) := by
  rw [List.pairwise_append] at h
  obtain ⟨hp1, hp2, hcross⟩ := h
  rw [List.pairwise_cons] at hp2
  obtain ⟨hx2, hp2'⟩ := hp2
  constructor
  · intro y hy
    rcases List.mem_append.mp hy with hy1 | hy2
    · exact disjoint2_symm (hcross y hy1 x (List.mem_cons_self x L2))
    · exact hx2 y hy2
  · rw [List.pairwise_append]
    exact ⟨hp1, hp2', fun a ha b hb => hcross a ha b (List.mem_cons_of_mem x hb)⟩

/-- `start_addr` and `end_addr` spelled out. -/
theorem start_addr_def (r : ListNode) : r.start_addr = r.addr := rfl

/-- `end_addr` spelled out. -/
theorem end_addr_def (r : ListNode) : r.end_addr = r.addr + r.size := rfl

/-- Disjoint intervals contained in two disjoint carriers. -/
theorem pairwise_news_append {L : List (Nat × Nat)} {c d : Nat}
    (news : List (Nat × Nat))
    (hL : List.Pairwise Disjoint2 L)
    (hbig : ∀ y ∈ L, Disjoint2 (c, d) y)
    (hsub : ∀ i ∈ news, c ≤ i.1 ∧ i.1 + i.2 ≤ c + d)
    (hnews : List.Pairwise Disjoint2 news) :
    List.Pairwise Disjoint2 (news ++ L) := by
  rw [List.pairwise_append]
  refine ⟨hnews, hL, ?_⟩
  intro i hi y hy
  have hs := hsub i hi
  exact disjoint2_sub hs.1 hs.2 (hbig y hy)

/-- Consing an element is a permutation of inserting it in the middle. -/
theorem perm_cons_middle {A : Type} (x : A) (u v w : List A) :
    List.Perm (x :: (u ++ (v ++ w))) (u ++ (v ++ x :: w)) := by
  have h := (@List.perm_middle A x (u ++ v) w).symm
  simpa [List.append_assoc] using h

/-- Core allocation-step soundness for the free-list allocator, stated over
an abstract collection `L` of occupied intervals: from a state whose free
nodes are in-bounds, header-capable, and pairwise disjoint from each other
and from `L`, a successful `alloc_core` at an adjusted request `(S, A)`
yields an in-bounds, `A`-aligned block disjoint from `L`, and the new node
list (with the block carved out and the leftover re-inserted) re-establishes
all those properties with the new block's interval added. -/
theorem ll_alloc_core_props {hs he : Nat} {a a1 : LinkedListAllocator}
    {L : List (Nat × Nat)} {S A addr : Nat}
    (Hnodes : ∀ r ∈ a.nodes, hs ≤ r.addr ∧ r.addr + r.size ≤ he ∧
        listNodeAlign ∣ r.addr ∧ listNodeSize ≤ r.size)
    (Hpair : List.Pairwise Disjoint2 (a.nodes.map nodeIv ++ L))
    (h8A : listNodeAlign ∣ A) (h8S : listNodeAlign ∣ S) (hApos : 0 < A)
    (hsucc : LinkedListAllocator.alloc_core a S A = some (some addr, a1)) :
    hs ≤ addr ∧ addr + S ≤ he ∧ A ∣ addr ∧ listNodeAlign ∣ addr ∧
    (∀ y ∈ L, Disjoint2 (addr, S) y) ∧
    (∀ r ∈ a1.nodes, hs ≤ r.addr ∧ r.addr + r.size ≤ he ∧
        listNodeAlign ∣ r.addr ∧ listNodeSize ≤ r.size) ∧
    List.Pairwise Disjoint2 (a1.nodes.map nodeIv ++ (addr, S) :: L) := by
  cases hg : LinkedListAllocator.find_region_go S A a.nodes with
  | none =>
    rw [alloc_core_of_no_fit (find_region_go_of_eq_none _ _ hg)] at hsucc
    simp at hsucc
  | some v =>
    obtain ⟨r, sv, rest⟩ := v
    obtain ⟨l1, l2, hl, hrest, hl1, hfit, hsv⟩ := find_region_go_eq_some _ _ hg
    rw [alloc_core_success hl hl1 hfit h8A h8S] at hsucc
    injection hsucc with h1
    injection h1 with ha hb
    injection ha with ha
    subst hb
    subst ha
    obtain ⟨hov, hle, hex⟩ := hfit
    rw [start_addr_def] at hov hle hex ⊢
    rw [end_addr_def] at hle hex
    obtain ⟨hrl, hru, hr8, hr16⟩ :=
      Hnodes r (by rw [hl]; exact List.mem_append_right _ (List.mem_cons_self _ _))
    have hstart : r.addr ≤ align_up r.addr A := le_align_up _ hApos
    have hAdvd : A ∣ align_up r.addr A := align_up_dvd _ _
    have h8addr : listNodeAlign ∣ align_up r.addr A := Nat.dvd_trans h8A hAdvd
    have h8end : listNodeAlign ∣ align_up r.addr A + S := Nat.dvd_add h8addr h8S
    -- reshape the pairwise hypothesis and split out node r
    rw [hl] at Hpair
    simp only [List.map_append, List.map_cons, List.cons_append,
      List.append_assoc] at Hpair
    obtain ⟨hrd, hrp⟩ := pairwise_middle Hpair
    have hsub_mem : ∀ x ∈ l1 ++ l2, x ∈ a.nodes := by
      intro x hx
      rw [hl]
      rcases List.mem_append.mp hx with hx1 | hx2
      · exact List.mem_append_left _ hx1
      · exact List.mem_append_right _ (List.mem_cons_of_mem _ hx2)
    have hLd : ∀ y ∈ L, Disjoint2 (align_up r.addr A, S) y := by
      intro y hy
      refine disjoint2_sub (c := r.addr) (d := r.size) hstart hle ?_
      have hmem : y ∈ List.map nodeIv l1 ++ (List.map nodeIv l2 ++ L) :=
        List.mem_append_right _ (List.mem_append_right _ hy)
      have hd := hrd y hmem
      simpa [nodeIv] using hd
    refine ⟨by omega, by omega, hAdvd, h8addr, hLd, ?_, ?_⟩
    · -- nodes of the new state
      intro x hx
      simp only [end_addr_def] at hx
      by_cases hexc : 0 < r.addr + r.size - (align_up r.addr A + S)
      · rw [if_pos hexc] at hx
        rcases List.mem_cons.mp hx with rfl | hx2
        · refine ⟨?_, ?_, ?_, ?_⟩
          · show hs ≤ align_up r.addr A + S
            omega
          · show align_up r.addr A + S +
                (r.addr + r.size - (align_up r.addr A + S)) ≤ he
            omega
          · show listNodeAlign ∣ align_up r.addr A + S
            exact h8end
          · show listNodeSize ≤ r.addr + r.size - (align_up r.addr A + S)
            omega
        · exact Hnodes x (hsub_mem x hx2)
      · rw [if_neg hexc] at hx
        exact Hnodes x (hsub_mem x hx)
    · -- pairwise disjointness of the new state
      simp only [end_addr_def, start_addr_def]
      by_cases hexc : 0 < r.addr + r.size - (align_up r.addr A + S)
      · rw [if_pos hexc]
        have hP : List.Pairwise Disjoint2
            ([(align_up r.addr A + S, r.addr + r.size - (align_up r.addr A + S)),
              (align_up r.addr A, S)] ++
             (List.map nodeIv l1 ++ (List.map nodeIv l2 ++ L))) := by
          refine pairwise_news_append (c := r.addr) (d := r.size) _ hrp ?_ ?_ ?_
          · intro y hy
            have hd := hrd y hy
            simpa [nodeIv] using hd
          · intro i hi
            rcases List.mem_cons.mp hi with rfl | hi2
            · constructor
              · simp only
                omega
              · simp only
                omega
            · rcases List.mem_cons.mp hi2 with rfl | hi3
              · constructor
                · simp only
                  omega
                · simp only
                  omega
              · cases hi3
          · refine List.pairwise_cons.mpr ⟨?_, List.pairwise_singleton _ _⟩
            intro y hy
            rcases List.mem_cons.mp hy with rfl | hy2
            · right
              simp only
              omega
            · cases hy2
        refine hP.perm ?_ (fun h => disjoint2_symm h)
        simp only [List.map_cons, List.map_append, List.cons_append,
          List.nil_append, List.append_assoc, nodeIv]
        refine List.Perm.cons _ ?_
        exact perm_cons_middle _ _ _ _
      · rw [if_neg hexc]
        have hP : List.Pairwise Disjoint2
            ([(align_up r.addr A, S)] ++
             (List.map nodeIv l1 ++ (List.map nodeIv l2 ++ L))) := by
          refine pairwise_news_append (c := r.addr) (d := r.size) _ hrp ?_ ?_
            (List.pairwise_singleton _ _)
          · intro y hy
            have hd := hrd y hy
            simpa [nodeIv] using hd
          · intro i hi
            rcases List.mem_cons.mp hi with rfl | hi2
            · constructor
              · simp only
                omega
              · simp only
                omega
            · cases hi2
        refine hP.perm ?_ (fun h => disjoint2_symm h)
        simp only [List.map_append, List.cons_append, List.nil_append,
          List.append_assoc]
        exact perm_cons_middle _ _ _ _

/-- On a valid request, `alloc` either fails wholesale (null sentinel, state
untouched) or succeeds with some address. -/
theorem ll_alloc_cases (a : LinkedListAllocator) (size align : Nat)
    (hpow : isPow2 align) :
    LinkedListAllocator.alloc a size align = some (none, a) ∨
    ∃ addr a1, LinkedListAllocator.alloc a size align = some (some addr, a1) := by
  obtain ⟨h8A, hAa, hApos, h8S, h16, hszle⟩ := size_align_spec size align hpow
  unfold LinkedListAllocator.alloc
  cases hg : LinkedListAllocator.find_region_go
      (LinkedListAllocator.size_align size align).1
      (LinkedListAllocator.size_align size align).2 a.nodes with
  | none =>
    exact Or.inl (alloc_core_of_no_fit (find_region_go_of_eq_none _ _ hg))
  | some v =>
    obtain ⟨r, sv, rest⟩ := v
    obtain ⟨l1, l2, hl, hrest, hl1, hfit, hsv⟩ := find_region_go_eq_some _ _ hg
    exact Or.inr ⟨_, _, alloc_core_success hl hl1 hfit h8A h8S⟩

/-- Deallocation-step soundness: freeing a live block succeeds (its address
is header-aligned and its adjusted size can host a header, so the
`add_free_region` assertions pass) and re-establishes the invariant with the
block's interval moved to the head of the free list. -/
theorem ll_dealloc_props {hs he : Nat} {a : LinkedListAllocator}
    {live : List Block} {b : Block}
    (hinv : LLInv hs he a live) (hmem : b ∈ live) :
    LinkedListAllocator.dealloc a b.1 b.2.1 b.2.2 =
      some ⟨⟨b.1, (LinkedListAllocator.size_align b.2.1 b.2.2).1⟩ :: a.nodes⟩ ∧
    LLInv hs he
      ⟨⟨b.1, (LinkedListAllocator.size_align b.2.1 b.2.2).1⟩ :: a.nodes⟩
      (live.erase b) := by
  obtain ⟨Hnodes, Hlive, Hpair⟩ := hinv
  obtain ⟨hbpow, hbl, hbu, hb8⟩ := Hlive b hmem
  obtain ⟨h8A, hAa, hApos, h8S, h16, hszle⟩ := size_align_spec b.2.1 b.2.2 hbpow
  have hdeal : LinkedListAllocator.dealloc a b.1 b.2.1 b.2.2 =
      some ⟨⟨b.1, (LinkedListAllocator.size_align b.2.1 b.2.2).1⟩ :: a.nodes⟩ := by
    unfold LinkedListAllocator.dealloc LinkedListAllocator.add_free_region
    rw [if_pos ⟨align_up_eq_self (by decide) hb8, h16⟩]
  refine ⟨hdeal, ?_, ?_, ?_⟩
  · intro r hr
    rcases List.mem_cons.mp hr with rfl | hr2
    · exact ⟨hbl, hbu, hb8, h16⟩
    · exact Hnodes r hr2
  · intro c hc
    exact Hlive c (List.mem_of_mem_erase hc)
  · obtain ⟨l1, l2, hnot1, hl, herase⟩ := List.exists_erase_eq hmem
    rw [hl] at Hpair
    rw [herase]
    simp only [List.map_cons, List.map_append, List.cons_append] at Hpair ⊢
    refine Hpair.perm ?_ (fun h => disjoint2_symm h)
    have hperm := (perm_cons_middle (blockIv b) (a.nodes.map nodeIv)
      (l1.map blockIv) (l2.map blockIv)).symm
    simpa [nodeIv, blockIv, List.append_assoc] using hperm

/-- A successful allocation step from an invariant state: the returned block
is aligned to the request, in bounds (at its adjusted size), disjoint from
every live block, and the invariant is re-established. -/
theorem ll_alloc_step_inv {hs he : Nat} {a a1 : LinkedListAllocator}
    {live : List Block} {size align addr : Nat}
    (hinv : LLInv hs he a live) (hpow : isPow2 align)
    (hsucc : LinkedListAllocator.alloc a size align = some (some addr, a1)) :
    (align ∣ addr ∧ hs ≤ addr ∧
      addr + (LinkedListAllocator.size_align size align).1 ≤ he ∧
      ∀ y ∈ live.map blockIv,
        Disjoint2 (addr, (LinkedListAllocator.size_align size align).1) y) ∧
    LLInv hs he a1 ((addr, size, align) :: live) := by
  obtain ⟨Hnodes, Hlive, Hpair⟩ := hinv
  obtain ⟨h8A, hAa, hApos, h8S, h16, hszle⟩ := size_align_spec size align hpow
  unfold LinkedListAllocator.alloc at hsucc
  obtain ⟨h1, h2, h3, h4, h5, h6, h7⟩ :=
    ll_alloc_core_props Hnodes Hpair h8A h8S hApos hsucc
  refine ⟨⟨Nat.dvd_trans hAa h3, h1, h2, ?_⟩, h6, ?_, ?_⟩
  · intro y hy
    rcases List.mem_map.mp hy with ⟨c, hc, rfl⟩
    exact h5 (blockIv c) (List.mem_map.mpr ⟨c, hc, rfl⟩)
  · intro c hc
    rcases List.mem_cons.mp hc with rfl | hc2
    · exact ⟨hpow, h1, h2, h4⟩
    · exact Hlive c hc2
  · simpa [blockIv, List.map_cons] using h7

/-- Every free-list trace step preserves the invariant. -/
theorem ll_step_inv {hs he : Nat} {st st1 : LinkedListAllocator × List Block}
    {op : AllocOp} (hinv : LLInv hs he st.1 st.2)
    (hstep : ll_step st op = some st1) : LLInv hs he st1.1 st1.2 := by
  cases op with
  | alloc size align =>
    simp only [ll_step] at hstep
    by_cases hpow : isPow2 align
    · rw [if_pos hpow] at hstep
      rcases ll_alloc_cases st.1 size align hpow with hnull | ⟨addr, a1, hsucc⟩
      · rw [hnull] at hstep
        injection hstep with h
        subst h
        exact hinv
      · rw [hsucc] at hstep
        injection hstep with h
        subst h
        exact (ll_alloc_step_inv hinv hpow hsucc).2
    · rw [if_neg hpow] at hstep
      cases hstep
  | dealloc addr size align =>
    simp only [ll_step] at hstep
    by_cases hgate : isPow2 align ∧ (addr, size, align) ∈ st.2
    · rw [if_pos hgate] at hstep
      have hdp := ll_dealloc_props hinv hgate.2
      rw [hdp.1] at hstep
      injection hstep with h
      subst h
      exact hdp.2
    · rw [if_neg hgate] at hstep
      cases hstep

/-- Invariant preservation along a whole trace. -/
theorem ll_steps_inv {hs he : Nat} :
    ∀ (ops : List AllocOp) (st st1 : LinkedListAllocator × List Block),
      LLInv hs he st.1 st.2 → ll_steps st ops = some st1 →
      LLInv hs he st1.1 st1.2 := by
  intro ops
  induction ops with
  | nil =>
    intro st st1 hinv hsteps
    injection hsteps with h
    subst h
    exact hinv
  | cons op ops ih =>
    intro st st1 hinv hsteps
    unfold ll_steps at hsteps
    cases hstep : ll_step st op with
    | none =>
      rw [hstep] at hsteps
      cases hsteps
    | some st2 =>
      rw [hstep] at hsteps
      exact ih st2 st1 (ll_step_inv hinv hstep) hsteps

/-- Any state reached by a free-list trace satisfies the invariant. -/
theorem ll_run_inv {hs hsize : Nat} {ops : List AllocOp}
    {st : LinkedListAllocator × List Block}
    (h : ll_run hs hsize ops = some st) :
    LLInv hs (hs + hsize) st.1 st.2 := by
  unfold ll_run at h
  cases hinit : LinkedListAllocator.init LinkedListAllocator.new hs hsize with
  | none =>
    simp [hinit] at h
  | some a =>
    simp only [hinit] at h
    refine ll_steps_inv ops (a, []) st ?_ h
    unfold LinkedListAllocator.init LinkedListAllocator.add_free_region at hinit
    split at hinit
    · rename_i hcond
      injection hinit with h2
      subst h2
      have h8 : listNodeAlign ∣ hs := by
        have hd := align_up_dvd hs listNodeAlign
        rw [hcond.1] at hd
        exact hd
      refine ⟨?_, ?_, ?_⟩
      · intro r hr
        rcases List.mem_cons.mp hr with rfl | hr2
        · exact ⟨Nat.le_refl _, Nat.le_refl _, h8, hcond.2⟩
        · simp [LinkedListAllocator.new] at hr2
      · intro c hc
        cases hc
      · simp [Disjoint2, LinkedListAllocator.new]
    · cases hinit

/-- C9 is false as stated in its dealloc half: a region too small to host a
header does not stop execution when passed to `dealloc`, because
`size_align` pads every layout size to at least the header size before the
assertions run — deallocating an 8-byte layout at an aligned address
silently succeeds, inserting a padded 16-byte node. -/
theorem ll_dealloc_undersized_silent :
    LinkedListAllocator.dealloc ⟨[]⟩ 1024 8 8 = some ⟨[⟨1024, 16⟩]⟩ ∧
    LinkedListAllocator.dealloc ⟨[]⟩ 1024 8 8 ≠ none := by
  constructor
  · decide
  · decide

/-- C9 (amended): every node ever present in the free list (in any state
reached by a trace of init, alloc and dealloc-of-live-blocks) satisfies the
node invariant — header-aligned start address and size at least the header
size — and the invariant is preserved by init, alloc (including leftover
re-insertion) and dealloc.  `add_free_region` stops execution with a fatal
assertion (`none`) on a misaligned or undersized region, and `dealloc` does
so on a misaligned pointer; an undersized layout, however, cannot reach the
size assertion through `dealloc`: `size_align` pads it to at least the
header size, so the free silently succeeds with the padded size. -/
theorem ll_node_invariant_amended :
    (∀ (hs hsize : Nat) (ops : List AllocOp)
        (st : LinkedListAllocator × List Block),
      ll_run hs hsize ops = some st →
      ∀ r ∈ st.1.nodes, listNodeAlign ∣ r.addr ∧ listNodeSize ≤ r.size) ∧
    (∀ (a : LinkedListAllocator) (addr size : Nat),
      ¬listNodeAlign ∣ addr ∨ size < listNodeSize →
      LinkedListAllocator.add_free_region a addr size = none) ∧
    (∀ (a : LinkedListAllocator) (p size align : Nat),
      ¬listNodeAlign ∣ p →
      LinkedListAllocator.dealloc a p size align = none) ∧
    (∀ (a : LinkedListAllocator) (p size align : Nat),
      isPow2 align → listNodeAlign ∣ p →
      listNodeSize ≤ (LinkedListAllocator.size_align size align).1 ∧
      LinkedListAllocator.dealloc a p size align =
        some ⟨⟨p, (LinkedListAllocator.size_align size align).1⟩ ::
          a.nodes⟩) := by
  have hbad : ∀ (a : LinkedListAllocator) (addr size : Nat),
      ¬listNodeAlign ∣ addr ∨ size < listNodeSize →
      LinkedListAllocator.add_free_region a addr size = none := by
    intro a addr size hb
    unfold LinkedListAllocator.add_free_region
    rw [if_neg]
    intro hcond
    rcases hb with hb | hb
    · exact hb (hcond.1 ▸ align_up_dvd addr listNodeAlign)
    · omega
  refine ⟨?_, hbad, ?_, ?_⟩
  · intro hs hsize ops st hrun r hr
    obtain ⟨Hnodes, _, _⟩ := ll_run_inv hrun
    exact ⟨(Hnodes r hr).2.2.1, (Hnodes r hr).2.2.2⟩
  · intro a p size align hp
    unfold LinkedListAllocator.dealloc
    exact hbad a p _ (Or.inl hp)
  · intro a p size align hpow hp
    have h16 := (size_align_spec size align hpow).2.2.2.2.1
    refine ⟨h16, ?_⟩
    unfold LinkedListAllocator.dealloc LinkedListAllocator.add_free_region
    rw [if_pos ⟨align_up_eq_self (by decide) hp, h16⟩]

/-- Witness for the amended C9: a concrete trace whose reached nodes all
satisfy the invariant; a misaligned free region and a misaligned dealloc
both hit the fatal assertion; and an undersized dealloc at an aligned
address succeeds with the size padded to the header size. -/
theorem ll_node_invariant_amended_witness :
    (∀ r ∈ ([⟨1024, 32⟩, ⟨1056, 992⟩] : List ListNode),
      listNodeAlign ∣ r.addr ∧ listNodeSize ≤ r.size) ∧
    LinkedListAllocator.add_free_region ⟨[]⟩ 1028 32 = none ∧
    LinkedListAllocator.dealloc ⟨[]⟩ 1028 32 8 = none ∧
    ((16 : Nat) ≤ (LinkedListAllocator.size_align 8 8).1 ∧
      LinkedListAllocator.dealloc ⟨[⟨2048, 64⟩]⟩ 1024 8 8 =
        some ⟨[⟨1024, 16⟩, ⟨2048, 64⟩]⟩) :=
  ⟨ll_node_invariant_amended.1 1024 1024 [.alloc 32 8, .dealloc 1024 32 8]
      (⟨[⟨1024, 32⟩, ⟨1056, 992⟩]⟩, []) (by decide),
   ll_node_invariant_amended.2.1 ⟨[]⟩ 1028 32 (Or.inl (by decide)),
   ll_node_invariant_amended.2.2.1 ⟨[]⟩ 1028 32 8 (by decide),
   ll_node_invariant_amended.2.2.2 ⟨[⟨2048, 64⟩]⟩ 1024 8 8 ⟨3, rfl⟩
     ⟨128, rfl⟩⟩

/-! ## Bump-allocator traces (for the shared allocation-soundness claim) -/

/-- One step of a bump-allocator trace; gates as in `ll_step`. -/
def bump_step (st : BumpAllocator × List Block) :
    AllocOp → Option (BumpAllocator × List Block)
  | .alloc size align =>
    if isPow2 align then
      match BumpAllocator.alloc st.1 size align with
      | (none, s1) => some (s1, st.2)
      | (some addr, s1) => some (s1, (addr, size, align) :: st.2)
    else none
  | .dealloc addr size align =>
    if (addr, size, align) ∈ st.2 then
      match BumpAllocator.dealloc st.1 addr size align with
      | none => none
      | some s1 => some (s1, st.2.erase (addr, size, align))
    else none

/-- Run a list of heap calls on the bump allocator. -/
def bump_steps (st : BumpAllocator × List Block) :
    List AllocOp → Option (BumpAllocator × List Block)
  | [] => some st
  | op :: ops =>
    match bump_step st op with
    | none => none
    | some st1 => bump_steps st1 ops

/-- Initialize the bump allocator and run a list of heap calls. -/
def bump_run (heap_start heap_size : Nat) (ops : List AllocOp) :
    Option (BumpAllocator × List Block) :=
  bump_steps (BumpAllocator.init BumpAllocator.new heap_start heap_size, []) ops

/-- Invariant of a reachable bump-allocator state: the bounds are the init
values, the cursor never moves below `heap_start`, the outstanding count is
the number of live blocks, and every live block lies between `heap_start`
and the cursor. -/
def BumpInv (hs he : Nat) (s : BumpAllocator) (live : List Block) : Prop :=
  s.heap_start = hs ∧ s.heap_end = he ∧ hs ≤ s.next ∧
  s.allocations = live.length ∧
  ∀ b ∈ live, hs ≤ b.1 ∧ b.1 + b.2.1 ≤ s.next

/-- Every bump trace step preserves the invariant. -/
theorem bump_step_inv {hs he : Nat} {st st1 : BumpAllocator × List Block}
    {op : AllocOp} (hinv : BumpInv hs he st.1 st.2)
    (hstep : bump_step st op = some st1) : BumpInv hs he st1.1 st1.2 := by
  obtain ⟨Hhs, Hhe, Hnext, Hcount, Hlive⟩ := hinv
  cases op with
  | alloc size align =>
    simp only [bump_step] at hstep
    by_cases hpow : isPow2 align
    · rw [if_pos hpow] at hstep
      have hApos : 0 < align := isPow2_pos hpow
      rw [bump_alloc_eq] at hstep
      by_cases hfail : USIZE ≤ align_up st.1.next align + size ∨
          st.1.heap_end < align_up st.1.next align + size
      · rw [if_pos hfail] at hstep
        injection hstep with h
        subst h
        exact ⟨Hhs, Hhe, Hnext, Hcount, Hlive⟩
      · rw [if_neg hfail] at hstep
        injection hstep with h
        subst h
        have hup := le_align_up st.1.next hApos
        refine ⟨Hhs, Hhe, by dsimp only; omega, by simpa using Hcount, ?_⟩
        intro b hb
        rcases List.mem_cons.mp hb with rfl | hb2
        · dsimp only
          omega
        · have := Hlive b hb2
          dsimp only
          omega
    · rw [if_neg hpow] at hstep
      cases hstep
  | dealloc addr size align =>
    simp only [bump_step] at hstep
    by_cases hgate : (addr, size, align) ∈ st.2
    · rw [if_pos hgate] at hstep
      have hlen : 0 < st.2.length := List.length_pos.mpr (by
        intro hnil
        rw [hnil] at hgate
        cases hgate)
      rw [bump_dealloc_eq] at hstep
      rw [if_neg (by omega : ¬st.1.allocations = 0)] at hstep
      injection hstep with h
      subst h
      have herase := List.length_erase_of_mem hgate
      refine ⟨Hhs, Hhe, ?_, ?_, ?_⟩
      · dsimp only
        split
        · omega
        · exact Hnext
      · dsimp only
        rw [herase]
        omega
      · intro b hb
        have hbm := Hlive b (List.mem_of_mem_erase hb)
        dsimp only
        split
        · rename_i h1
          exfalso
          have hnil : st.2.erase (addr, size, align) = [] :=
            List.length_eq_zero.mp (by omega)
          rw [hnil] at hb
          cases hb
        · exact hbm
    · rw [if_neg hgate] at hstep
      cases hstep

/-- Invariant preservation along a whole bump trace. -/
theorem bump_steps_inv {hs he : Nat} :
    ∀ (ops : List AllocOp) (st st1 : BumpAllocator × List Block),
      BumpInv hs he st.1 st.2 → bump_steps st ops = some st1 →
      BumpInv hs he st1.1 st1.2 := by
  intro ops
  induction ops with
  | nil =>
    intro st st1 hinv hsteps
    injection hsteps with h
    subst h
    exact hinv
  | cons op ops ih =>
    intro st st1 hinv hsteps
    unfold bump_steps at hsteps
    cases hstep : bump_step st op with
    | none =>
      rw [hstep] at hsteps
      cases hsteps
    | some st2 =>
      rw [hstep] at hsteps
      exact ih st2 st1 (bump_step_inv hinv hstep) hsteps

/-- Any state reached by a bump trace satisfies the invariant. -/
theorem bump_run_inv {hs hsize : Nat} {ops : List AllocOp}
    {st : BumpAllocator × List Block}
    (h : bump_run hs hsize ops = some st) :
    BumpInv hs (hs + hsize) st.1 st.2 := by
  refine bump_steps_inv ops _ st ?_ h
  exact ⟨rfl, rfl, Nat.le_refl _, rfl, fun b hb => by cases hb⟩

/-- C1: for either heap allocator, in any state reached by a trace of valid
heap calls (power-of-two alignments, deallocations only of live blocks), a
successful `alloc (size, align)` returns an address that is a multiple of
`align`, whose interval `[addr, addr + size)` lies within the heap bounds
fixed at `init`, and which does not overlap the interval of any live
(earlier allocated, not yet freed) block. -/
theorem alloc_returns_valid_block :
    (∀ (hs hsize : Nat) (ops : List AllocOp)
        (st : BumpAllocator × List Block) (size align addr : Nat)
        (s1 : BumpAllocator),
      bump_run hs hsize ops = some st → isPow2 align →
      BumpAllocator.alloc st.1 size align = (some addr, s1) →
      align ∣ addr ∧ hs ≤ addr ∧ addr + size ≤ hs + hsize ∧
      ∀ b ∈ st.2, addr + size ≤ b.1 ∨ b.1 + b.2.1 ≤ addr) ∧
    (∀ (hs hsize : Nat) (ops : List AllocOp)
        (st : LinkedListAllocator × List Block) (size align addr : Nat)
        (a1 : LinkedListAllocator),
      ll_run hs hsize ops = some st → isPow2 align →
      LinkedListAllocator.alloc st.1 size align = some (some addr, a1) →
      align ∣ addr ∧ hs ≤ addr ∧ addr + size ≤ hs + hsize ∧
      ∀ b ∈ st.2, addr + size ≤ b.1 ∨ b.1 + b.2.1 ≤ addr) := by
  constructor
  · intro hs hsize ops st size align addr s1 hrun hpow hsucc
    obtain ⟨Hhs, Hhe, Hnext, Hcount, Hlive⟩ := bump_run_inv hrun
    have hApos : 0 < align := isPow2_pos hpow
    rw [bump_alloc_eq] at hsucc
    by_cases hfail : USIZE ≤ align_up st.1.next align + size ∨
        st.1.heap_end < align_up st.1.next align + size
    · rw [if_pos hfail] at hsucc
      injection hsucc with h1 h2
      cases h1
    · rw [if_neg hfail] at hsucc
      injection hsucc with h1 h2
      injection h1 with h1
      subst h1
      have hup := le_align_up st.1.next hApos
      refine ⟨align_up_dvd _ _, by omega, by omega, ?_⟩
      intro b hb
      have := Hlive b hb
      omega
  · intro hs hsize ops st size align addr a1 hrun hpow hsucc
    have hinv := ll_run_inv hrun
    obtain ⟨⟨hdvd, hlo, hhi, hdisj⟩, _⟩ := ll_alloc_step_inv hinv hpow hsucc
    obtain ⟨h8A, hAa, hApos, h8S, h16, hszle⟩ := size_align_spec size align hpow
    refine ⟨hdvd, hlo, by omega, ?_⟩
    intro b hb
    have hbl := (hinv.2.1) b hb
    obtain ⟨hbpow, _, _, _⟩ := hbl
    have hbsz := (size_align_spec b.2.1 b.2.2 hbpow).2.2.2.2.2
    have hd := hdisj (blockIv b) (List.mem_map.mpr ⟨b, hb, rfl⟩)
    unfold Disjoint2 blockIv at hd
    dsimp only at hd
    omega

/-- Witness for C1: a bump trace and a free-list trace, each followed by one
further successful allocation that is aligned, in bounds, and disjoint from
the single live block. -/
theorem alloc_returns_valid_block_witness :
    (8 ∣ 1016 ∧ 1000 ≤ 1016 ∧ 1016 + 16 ≤ 1000 + 100 ∧
      ∀ b ∈ [((1000, 10, 8) : Block)], 1016 + 16 ≤ b.1 ∨ b.1 + b.2.1 ≤ 1016) ∧
    (16 ∣ 1056 ∧ 1024 ≤ 1056 ∧ 1056 + 64 ≤ 1024 + 1024 ∧
      ∀ b ∈ [((1024, 32, 8) : Block)], 1056 + 64 ≤ b.1 ∨ b.1 + b.2.1 ≤ 1056) :=
  ⟨alloc_returns_valid_block.1 1000 100 [.alloc 10 8]
      (⟨1000, 1100, 1010, 1⟩, [(1000, 10, 8)]) 16 8 1016 ⟨1000, 1100, 1032, 2⟩
      (by decide) ⟨3, rfl⟩ (by decide),
   alloc_returns_valid_block.2 1024 1024 [.alloc 32 8]
      (⟨[⟨1056, 992⟩]⟩, [(1024, 32, 8)]) 64 16 1056 ⟨[⟨1120, 928⟩]⟩
      (by decide) ⟨4, rfl⟩ (by decide)⟩

/-- For an already header-aligned, header-sized request at the header
alignment, `size_align` is the identity adjustment. -/
theorem size_align_aligned {X : Nat} (h8 : (8 : Nat) ∣ X) (h16 : 16 ≤ X) :
    LinkedListAllocator.size_align X 8 = (X, 8) := by
  unfold LinkedListAllocator.size_align
  rw [show max 8 listNodeAlign = 8 from rfl]
  rw [align_up_eq_self (by norm_num) h8]
  rw [Nat.max_eq_left (by unfold listNodeSize; omega)]

/-- If some node fits an adjusted request, `alloc_core` succeeds. -/
theorem ll_alloc_core_succeeds_of_fit {a : LinkedListAllocator} {S A : Nat}
    (h8A : listNodeAlign ∣ A) (h8S : listNodeAlign ∣ S)
    (hfit : ∃ r ∈ a.nodes, Fits r S A) :
    ∃ addr a1, LinkedListAllocator.alloc_core a S A = some (some addr, a1) := by
  cases hg : LinkedListAllocator.find_region_go S A a.nodes with
  | none =>
    obtain ⟨r, hr, hf⟩ := hfit
    exact absurd hf (find_region_go_of_eq_none _ _ hg r hr)
  | some v =>
    obtain ⟨r, sv, rest⟩ := v
    obtain ⟨l1, l2, hl, hrest, hl1, hfit2, hsv⟩ := find_region_go_eq_some _ _ hg
    exact ⟨_, _, alloc_core_success hl hl1 hfit2 h8A h8S⟩

/-- Trace concatenation: a successful prefix lets the suffix continue from
its final state. -/
theorem ll_steps_append_some {ops1 : List AllocOp} :
    ∀ {st st1 : LinkedListAllocator × List Block} (ops2 : List AllocOp),
      ll_steps st ops1 = some st1 →
      ll_steps st (ops1 ++ ops2) = ll_steps st1 ops2 := by
  induction ops1 with
  | nil =>
    intro st st1 ops2 h
    injection h with h
    subst h
    rfl
  | cons op rest ih =>
    intro st st1 ops2 h
    simp only [ll_steps, List.cons_append] at h ⊢
    cases hstep : ll_step st op with
    | none =>
      rw [hstep] at h
      cases h
    | some st2 =>
      rw [hstep] at h
      exact ih ops2 h

/-- One minimal (header-sized, header-aligned) allocation step on a
single-node heap. -/
theorem ll_min_alloc_step {p q : Nat} {L : List Block}
    (hp8 : (8 : Nat) ∣ p) (hq : 32 ≤ q) (hov : p + q < USIZE) :
    ll_step (⟨[⟨p, q⟩]⟩, L) (.alloc 16 8) =
      some (⟨[⟨p + 16, q - 16⟩]⟩, (p, 16, 8) :: L) := by
  have halloc : LinkedListAllocator.alloc ⟨[⟨p, q⟩]⟩ 16 8 =
      some (some p, ⟨[⟨p + 16, q - 16⟩]⟩) := by
    show LinkedListAllocator.alloc_core ⟨[⟨p, q⟩]⟩ 16 8 = _
    have hfit : Fits ⟨p, q⟩ 16 8 := by
      unfold Fits
      rw [start_addr_def, end_addr_def]
      dsimp only
      rw [align_up_eq_self (by norm_num) hp8]
      unfold listNodeSize
      refine ⟨by omega, by omega, Or.inr (by omega)⟩
    have hsucc := @alloc_core_success ⟨[⟨p, q⟩]⟩ 16 8 [] [] ⟨p, q⟩
      rfl (by intro x hx; cases hx) hfit (by decide) (by decide)
    rw [show (⟨p, q⟩ : ListNode).start_addr = p from rfl,
        show (⟨p, q⟩ : ListNode).end_addr = p + q from rfl] at hsucc
    rw [align_up_eq_self (by norm_num) hp8] at hsucc
    rw [if_pos (by omega : 0 < p + q - (p + 16))] at hsucc
    rw [show p + q - (p + 16) = q - 16 from by omega] at hsucc
    simpa using hsucc
  simp only [ll_step]
  have hpow : isPow2 8 := ⟨3, rfl⟩
  rw [if_pos hpow]
  rw [halloc]

/-- One deallocation step of a minimal block at the head of the live list. -/
theorem ll_min_dealloc_step {p : Nat} {nodes : List ListNode} {L : List Block}
    (hp8 : (8 : Nat) ∣ p) :
    ll_step (⟨nodes⟩, (p, 16, 8) :: L) (.dealloc p 16 8) =
      some (⟨⟨p, 16⟩ :: nodes⟩, L) := by
  have hdeal : LinkedListAllocator.dealloc ⟨nodes⟩ p 16 8 =
      some ⟨⟨p, 16⟩ :: nodes⟩ := by
    unfold LinkedListAllocator.dealloc LinkedListAllocator.add_free_region
    rw [if_pos ⟨align_up_eq_self (by decide) (by exact hp8), by decide⟩]
    rfl
  simp only [ll_step]
  have hgate : isPow2 8 ∧ ((p, 16, 8) : Block) ∈ (p, 16, 8) :: L :=
    ⟨⟨3, rfl⟩, List.mem_cons_self _ _⟩
  rw [if_pos hgate]
  rw [hdeal]
  rw [List.erase_cons_head]

/-- Allocation phase: `i` minimal allocations from a fresh single-node heap
leave one shrunken node and `i` live minimal blocks at consecutive
addresses. -/
theorem ll_alloc_phase (hs hsize k : Nat) (h8 : (8 : Nat) ∣ hs)
    (hov : hs + hsize < USIZE) (hfit : 16 * (k + 1) ≤ hsize) :
    ∀ i, i ≤ k →
      ll_steps (⟨[⟨hs, hsize⟩]⟩, []) (List.replicate i (.alloc 16 8)) =
        some (⟨[⟨hs + 16 * i, hsize - 16 * i⟩]⟩,
          (List.range i).reverse.map (fun j => (hs + 16 * j, 16, 8))) := by
  intro i
  induction i with
  | zero =>
    intro _
    simp [ll_steps]
  | succ i ih =>
    intro hik
    rw [List.replicate_succ']
    rw [ll_steps_append_some _ (ih (by omega))]
    have hstep := ll_min_alloc_step
      (p := hs + 16 * i) (q := hsize - 16 * i)
      (L := (List.range i).reverse.map (fun j => (hs + 16 * j, 16, 8)))
      (Nat.dvd_add h8 ⟨2 * i, by ring⟩) (by omega) (by omega)
    simp only [ll_steps]
    rw [hstep]
    rw [show hs + 16 * i + 16 = hs + 16 * (i + 1) from by ring]
    rw [show hsize - 16 * i - 16 = hsize - 16 * (i + 1) from by omega]
    rw [show (List.range (i + 1)).reverse = i :: (List.range i).reverse from
      by simp [List.range_succ]]
    rfl

/-- Deallocation phase: freeing the `n` remaining live minimal blocks in
reverse order of allocation pushes each in front of the already-freed ones,
leaving `k` consecutive minimal nodes plus the untouched tail. -/
theorem ll_dealloc_phase (hs hsize k : Nat) (h8 : (8 : Nat) ∣ hs) :
    ∀ n m, n + m = k →
      ll_steps
        (⟨(List.range' n m).map (fun j => ⟨hs + 16 * j, 16⟩) ++
            [⟨hs + 16 * k, hsize - 16 * k⟩]⟩,
          (List.range n).reverse.map (fun j => (hs + 16 * j, 16, 8)))
        ((List.range n).reverse.map (fun j => AllocOp.dealloc (hs + 16 * j) 16 8)) =
      some (⟨(List.range' 0 k).map (fun j => ⟨hs + 16 * j, 16⟩) ++
              [⟨hs + 16 * k, hsize - 16 * k⟩]⟩, []) := by
  intro n
  induction n with
  | zero =>
    intro m hm
    have hmk : m = k := by omega
    subst hmk
    simp [ll_steps]
  | succ n ih =>
    intro m hm
    rw [show (List.range (n + 1)).reverse = n :: (List.range n).reverse from
      by simp [List.range_succ]]
    simp only [List.map_cons, ll_steps]
    rw [ll_min_dealloc_step (Nat.dvd_add h8 ⟨2 * n, by ring⟩)]
    have hr : (⟨hs + 16 * n, 16⟩ : ListNode) ::
        ((List.range' (n + 1) m).map (fun j => ⟨hs + 16 * j, 16⟩) ++
          [⟨hs + 16 * k, hsize - 16 * k⟩]) =
        (List.range' n (m + 1)).map (fun j => ⟨hs + 16 * j, 16⟩) ++
          [⟨hs + 16 * k, hsize - 16 * k⟩] := by
      rw [show List.range' n (m + 1) = n :: List.range' (n + 1) m from rfl]
      simp
    rw [hr]
    exact ih (m + 1) (by omega)

/-- C3 is false as stated: with `k = 1`, one successful 32-byte allocation
followed by its deallocation (trivially in reverse order) leaves the heap
unable to satisfy a request for the heap size minus the (single) header
overhead — the two free fragments are never coalesced. -/
theorem ll_full_realloc_counterexample :
    ll_run 1024 1024 [.alloc 32 8, .dealloc 1024 32 8] =
      some (⟨[⟨1024, 32⟩, ⟨1056, 992⟩]⟩, []) ∧
    LinkedListAllocator.alloc ⟨[⟨1024, 32⟩, ⟨1056, 992⟩]⟩ (1024 - 16 * 1) 8 =
      some (none, ⟨[⟨1024, 32⟩, ⟨1056, 992⟩]⟩) := by
  constructor
  · decide
  · decide

/-- C3 (amended): over a fresh heap of `hsize` bytes, `k` successful
allocations of the minimal (header-sized) block, followed by deallocating
all `k` blocks in reverse order of allocation, leave the allocator able to
satisfy a single request for the full heap size minus the total header
overhead (`16 * k`). -/
theorem ll_reverse_free_full_realloc (k hs hsize : Nat)
    (h8 : (8 : Nat) ∣ hs) (hS8 : (8 : Nat) ∣ hsize)
    (hfit : 16 * (k + 1) ≤ hsize) (hov : hs + hsize < USIZE) :
    ∃ st, ll_run hs hsize
        (List.replicate k (.alloc 16 8) ++
          (List.range k).reverse.map
            (fun j => AllocOp.dealloc (hs + 16 * j) 16 8)) = some st ∧
      ∃ addr a1,
        LinkedListAllocator.alloc st.1 (hsize - 16 * k) 8 =
          some (some addr, a1) := by
  have hinit : LinkedListAllocator.init LinkedListAllocator.new hs hsize =
      some ⟨[⟨hs, hsize⟩]⟩ := by
    unfold LinkedListAllocator.init LinkedListAllocator.add_free_region
    rw [if_pos ⟨align_up_eq_self (by decide) h8,
      by unfold listNodeSize; omega⟩]
    rfl
  have hph1 := ll_alloc_phase hs hsize k h8 hov hfit k (Nat.le_refl k)
  have hph2 := ll_dealloc_phase hs hsize k h8 k 0 (by omega)
  have happ := ll_steps_append_some
    ((List.range k).reverse.map (fun j => AllocOp.dealloc (hs + 16 * j) 16 8))
    hph1
  refine ⟨(⟨(List.range' 0 k).map (fun j => ⟨hs + 16 * j, 16⟩) ++
      [⟨hs + 16 * k, hsize - 16 * k⟩]⟩, []), ?_, ?_⟩
  · unfold ll_run
    simp only [hinit]
    rw [happ]
    rw [show ((⟨[⟨hs + 16 * k, hsize - 16 * k⟩]⟩ : LinkedListAllocator),
        (List.range k).reverse.map (fun j => (hs + 16 * j, 16, 8))) =
        (⟨(List.range' k 0).map (fun j => (⟨hs + 16 * j, 16⟩ : ListNode)) ++
            [⟨hs + 16 * k, hsize - 16 * k⟩]⟩,
          (List.range k).reverse.map (fun j => (hs + 16 * j, 16, 8))) from
      by simp [List.range']]
    exact hph2
  · have hT8 : (8 : Nat) ∣ hsize - 16 * k :=
      Nat.dvd_sub' hS8 ⟨2 * k, by ring⟩
    have hT16 : 16 ≤ hsize - 16 * k := by omega
    unfold LinkedListAllocator.alloc
    rw [size_align_aligned hT8 hT16]
    dsimp only
    apply ll_alloc_core_succeeds_of_fit (by decide) (by exact hT8)
    refine ⟨⟨hs + 16 * k, hsize - 16 * k⟩, ?_, ?_⟩
    · exact List.mem_append_right _ (List.mem_cons_self _ _)
    · unfold Fits
      rw [start_addr_def, end_addr_def]
      dsimp only
      rw [align_up_eq_self (by norm_num) (Nat.dvd_add h8 ⟨2 * k, by ring⟩)]
      refine ⟨by omega, by omega, Or.inl (by omega)⟩

/-- Witness for the amended C3 at `k = 2` over a 1024-byte heap at address
1024: after two minimal allocations and two reverse-order frees, a request
for `1024 - 32` bytes succeeds. -/
theorem ll_reverse_free_full_realloc_witness :
    ((8 : Nat) ∣ 1024 ∧ 16 * (2 + 1) ≤ 1024 ∧ 1024 + 1024 < USIZE) ∧
    (∃ st, ll_run 1024 1024
        (List.replicate 2 (.alloc 16 8) ++
          (List.range 2).reverse.map
            (fun j => AllocOp.dealloc (1024 + 16 * j) 16 8)) = some st ∧
      ∃ addr a1,
        LinkedListAllocator.alloc st.1 (1024 - 16 * 2) 8 =
          some (some addr, a1)) :=
  ⟨⟨⟨128, rfl⟩, by norm_num, by norm_num [USIZE]⟩,
   ll_reverse_free_full_realloc 2 1024 1024 ⟨128, rfl⟩ ⟨128, rfl⟩
     (by norm_num) (by norm_num [USIZE])⟩

/-! ## Address translation (src/src/memory.rs) -/

/-- Outcome of reading a page-table entry through `PageTableEntry::frame()`
of the x86_64 crate (memory.rs line 99): the referenced frame's start
address when the entry is present and not huge, `FrameNotPresent` when the
entry is absent, `HugeFrame` when it is marked as a huge page. -/
inductive FrameResult
  | frame (start : Nat)
  | frameNotPresent
  | hugeFrame
deriving DecidableEq

/-- The page-table memory, read-only for translation: the entry at `index`
of the table mapped at virtual address `virt` (tables are read at
`physical_memory_offset + frame.start_address`, memory.rs lines 93-98). -/
def PTMem : Type := Nat → Nat → FrameResult

/-- `VirtAddr::p4_index`: bits 39..47 of the virtual address. -/
def p4_index (addr : Nat) : Nat := addr / 2 ^ 39 % 512

/-- `VirtAddr::p3_index`: bits 30..38. -/
def p3_index (addr : Nat) : Nat := addr / 2 ^ 30 % 512

/-- `VirtAddr::p2_index`: bits 21..29. -/
def p2_index (addr : Nat) : Nat := addr / 2 ^ 21 % 512

/-- `VirtAddr::p1_index`: bits 12..20. -/
def p1_index (addr : Nat) : Nat := addr / 2 ^ 12 % 512

/-- `VirtAddr::page_offset`: the low 12 bits. -/
def page_offset (addr : Nat) : Nat := addr % 4096

/-- Result of `translate_addr_inner`: the physical address (`Some`), the
"no mapping" outcome (`None`), or the fatal
`panic!("huge pages not supported")`. -/
inductive TranslateResult
  | ok (pa : Nat)
  | noMapping
  | hugeFatal
deriving DecidableEq

/-- The loop of `translate_addr_inner` (memory.rs lines 90-104): for each
index, read the entry of the current table and update the current frame;
an absent entry aborts with "not present", a huge-page entry with "huge". -/
def walkTables (mem : PTMem) (offset : Nat) : Nat → List Nat → FrameResult
  | fr, [] => .frame fr
  | fr, i :: rest =>
    match mem (offset + fr) i with
    | .frame f => walkTables mem offset f rest
    | .frameNotPresent => .frameNotPresent
    | .hugeFrame => .hugeFrame

/-- `translate_addr_inner` (memory.rs lines 75-108): walk the four table
indexes derived from the virtual address, most significant first, starting
from the CR3 level-4 frame `l4_frame`; combine the final frame with the
page offset.  The memory is threaded through and returned unchanged: the
walk only reads (`*const PageTable`, memory.rs line 94). -/
def translate_addr_inner (mem : PTMem) (offset l4_frame addr : Nat) :
    TranslateResult × PTMem :=
  (match walkTables mem offset l4_frame
      [p4_index addr, p3_index addr, p2_index addr, p1_index addr] with
   | .frame f => .ok (f + page_offset addr)
   | .frameNotPresent => .noMapping
   | .hugeFrame => .hugeFatal,
   mem)

/-- `translate_addr` (memory.rs lines 65-67): a thin wrapper around
`translate_addr_inner`. -/
def translate_addr (mem : PTMem) (offset l4_frame addr : Nat) :
    TranslateResult × PTMem :=
  translate_addr_inner mem offset l4_frame addr

/-- C6: `translate` walks exactly 4 page-table levels, most-significant
index first.  It returns "no mapping" exactly when the first decisive entry
along the walk is absent, terminates the process exactly when that entry is
a huge page, and otherwise returns the 4th-level frame's start address plus
the page-offset bits of the original address; the page-table memory comes
back unchanged (no writes). -/
theorem translate_addr_four_levels (mem : PTMem) (offset l4 addr : Nat) :
    translate_addr mem offset l4 addr =
      (match mem (offset + l4) (p4_index addr) with
       | .frameNotPresent => .noMapping
       | .hugeFrame => .hugeFatal
       | .frame f3 =>
         match mem (offset + f3) (p3_index addr) with
         | .frameNotPresent => .noMapping
         | .hugeFrame => .hugeFatal
         | .frame f2 =>
           match mem (offset + f2) (p2_index addr) with
           | .frameNotPresent => .noMapping
           | .hugeFrame => .hugeFatal
           | .frame f1 =>
             match mem (offset + f1) (p1_index addr) with
             | .frameNotPresent => .noMapping
             | .hugeFrame => .hugeFatal
             | .frame f0 => .ok (f0 + addr % 4096),
       mem) := by
  unfold translate_addr translate_addr_inner
  cases h4 : mem (offset + l4) (p4_index addr) with
  | frameNotPresent => simp [walkTables, h4]
  | hugeFrame => simp [walkTables, h4]
  | frame f3 =>
    cases h3 : mem (offset + f3) (p3_index addr) with
    | frameNotPresent => simp [walkTables, h4, h3]
    | hugeFrame => simp [walkTables, h4, h3]
    | frame f2 =>
      cases h2 : mem (offset + f2) (p2_index addr) with
      | frameNotPresent => simp [walkTables, h4, h3, h2]
      | hugeFrame => simp [walkTables, h4, h3, h2]
      | frame f1 =>
        cases h1 : mem (offset + f1) (p1_index addr) with
        | frameNotPresent => simp [walkTables, h4, h3, h2, h1]
        | hugeFrame => simp [walkTables, h4, h3, h2, h1]
        | frame f0 => simp [walkTables, page_offset, h4, h3, h2, h1]

/-! ## Physical frame allocator (src/src/memory.rs lines 9-40) -/

/-- A bootloader memory-map region.  The bootinfo `MemoryRegion.range` is a
`FrameRange` that stores 4096-byte frame numbers, so both region bounds are
frame-aligned by construction; `usable` is `region_type ==
MemoryRegionType::Usable`. -/
structure MemoryRegion where
  start_frame : Nat
  end_frame : Nat
  usable : Bool
deriving DecidableEq

/-- `FrameRange::start_addr`. -/
def MemoryRegion.start_addr (r : MemoryRegion) : Nat := r.start_frame * 4096

/-- `FrameRange::end_addr` (exclusive). -/
def MemoryRegion.end_addr (r : MemoryRegion) : Nat := r.end_frame * 4096

/-- Rust `(start..stop).step_by(4096)`. -/
def step_by_4096 (start stop : Nat) : List Nat :=
  (List.range ((stop - start + 4095) / 4096)).map (fun i => start + 4096 * i)

/-- `PhysFrame::containing_address`: round down to the 4096 boundary. -/
def containing_address (addr : Nat) : Nat := addr - addr % 4096

/-- `BootInfoFrameAllocator` (memory.rs lines 9-12): the immutable memory
map and the monotonically increasing index. -/
structure BootInfoFrameAllocator where
  memory_map : List MemoryRegion
  next : Nat
deriving DecidableEq

/-- `BootInfoFrameAllocator::usable_frames` (memory.rs lines 22-31) as a
function of the memory map: filter the usable regions, step through each
region's address range at 4096-byte granularity, and map each address to
its containing frame. -/
def usable_frames_map (m : List MemoryRegion) : List Nat :=
  ((m.filter (fun r => r.usable)).flatMap
    (fun r => step_by_4096 r.start_addr r.end_addr)).map containing_address

/-- `BootInfoFrameAllocator::usable_frames` (memory.rs lines 22-31). -/
def usable_frames (s : BootInfoFrameAllocator) : List Nat :=
  usable_frames_map s.memory_map

/-- `BootInfoFrameAllocator::allocate_frame` (memory.rs lines 34-40):
return the frame at the current index of the usable sequence — `none` when
it is exhausted — and increment the index either way. -/
def allocate_frame (s : BootInfoFrameAllocator) :
    Option Nat × BootInfoFrameAllocator :=
  ((usable_frames s).get? s.next, { s with next := s.next + 1 })

/-- Iterate `allocate_frame`, collecting the results of `n` calls. -/
def allocate_frames (s : BootInfoFrameAllocator) :
    Nat → List (Option Nat) × BootInfoFrameAllocator
  | 0 => ([], s)
  | n + 1 =>
    match allocate_frame s with
    | (f, s1) =>
      match allocate_frames s1 n with
      | (rest, s2) => (f :: rest, s2)

/-- `allocate_frame` iterated from index `i`: the `j`-th call returns the
element at index `i + j` of the usable sequence, and the index always
advances by one per call, found frame or not. -/
theorem allocate_frames_eq (m : List MemoryRegion) :
    ∀ n i, allocate_frames ⟨m, i⟩ n =
      ((List.range n).map (fun j => (usable_frames_map m).get? (i + j)),
       ⟨m, i + n⟩) := by
  intro n
  induction n with
  | zero =>
    intro i
    simp [allocate_frames]
  | succ n ih =>
    intro i
    simp only [allocate_frames, allocate_frame, usable_frames]
    rw [ih (i + 1)]
    have hmap : ∀ j : Nat, (usable_frames_map m).get? (i + 1 + j) =
        (usable_frames_map m).get? (i + (j + 1)) := by
      intro j
      congr 1
      omega
    rw [List.range_succ_eq_map]
    simp only [List.map_cons, List.map_map, Nat.add_zero]
    rw [show i + 1 + n = i + (n + 1) from by omega]
    have hfun : List.map
        ((fun j => (usable_frames_map m).get? (i + j)) ∘ Nat.succ)
        (List.range n) =
        List.map (fun j => (usable_frames_map m).get? (i + 1 + j))
        (List.range n) := by
      refine List.map_congr_left ?_
      intro j hj
      simp only [Function.comp_apply]
      congr 1
      omega
    rw [hfun]

/-- Reading a list at every index below its length yields its elements. -/
theorem range_length_map_getq {α : Type} :
    ∀ l : List α, (List.range l.length).map (fun j => l.get? j) = l.map some := by
  intro l
  induction l with
  | nil => rfl
  | cons a t ih =>
    rw [List.length_cons, List.range_succ_eq_map]
    simp only [List.map_cons, List.map_map, List.get?_cons_zero]
    refine congrArg (List.cons (some a)) ?_
    rw [← ih]
    refine List.map_congr_left ?_
    intro j hj
    simp only [Function.comp_apply, List.get?_cons_succ]

/-- The elements a region contributes are its frame-number multiples of
4096. -/
theorem step_elems {r : MemoryRegion} {x : Nat}
    (hx : x ∈ step_by_4096 r.start_addr r.end_addr) :
    ∃ i, i < r.end_frame - r.start_frame ∧ x = (r.start_frame + i) * 4096 := by
  unfold step_by_4096 MemoryRegion.start_addr MemoryRegion.end_addr at hx
  rcases List.mem_map.mp hx with ⟨i, hi, rfl⟩
  rw [List.mem_range] at hi
  have hcnt : (r.end_frame * 4096 - r.start_frame * 4096 + 4095) / 4096 =
      r.end_frame - r.start_frame := by
    rw [← Nat.sub_mul]
    rw [show (r.end_frame - r.start_frame) * 4096 + 4095 =
      4096 * (r.end_frame - r.start_frame) + 4095 from by ring]
    rw [Nat.mul_add_div (by norm_num)]
    norm_num
  rw [hcnt] at hi
  exact ⟨i, hi, by ring⟩

/-- `containing_address` fixes 4096-multiples. -/
theorem containing_address_of_dvd {a : Nat} (h : (4096 : Nat) ∣ a) :
    containing_address a = a := by
  unfold containing_address
  rcases h with ⟨c, rfl⟩
  rw [Nat.mul_mod_right]
  omega

/-- Pairwise relation through a bind. -/
theorem pairwise_bind_of {α β : Type} {R : β → β → Prop} {f : α → List β} :
    ∀ {l : List α}, (∀ a ∈ l, List.Pairwise R (f a)) →
      List.Pairwise (fun a b => ∀ x ∈ f a, ∀ y ∈ f b, R x y) l →
      List.Pairwise R (l.flatMap f) := by
  intro l
  induction l with
  | nil =>
    intro _ _
    simp
  | cons a t ih =>
    intro h1 h2
    rw [List.pairwise_cons] at h2
    rw [List.flatMap_cons, List.pairwise_append]
    refine ⟨h1 a (List.mem_cons_self a t), ih (fun b hb => h1 b (List.mem_cons_of_mem a hb)) h2.2, ?_⟩
    intro x hx y hy
    rcases List.mem_flatMap.mp hy with ⟨b, hb, hyb⟩
    exact h2.1 b hb x hx y hyb

/-- C7: for a memory map whose pairwise-disjoint usable regions contain
exactly `m` frames (`m` being the length of the usable-frame sequence),
every `allocate_frame` call increments the index whether or not a frame was
found; the first `m` calls return exactly the `m` frames of the sequence in
order — pairwise distinct, non-overlapping 4096-byte frames whose start
addresses are multiples of 4096 — and every call from the `(m+1)`-th on
returns "no frame available". -/
theorem frame_allocator_correct (m : List MemoryRegion)
    (hdisj : List.Pairwise
      (fun r r2 => r.end_frame ≤ r2.start_frame ∨ r2.end_frame ≤ r.start_frame)
      (m.filter (fun r => r.usable))) :
    (∀ n, allocate_frames ⟨m, 0⟩ n =
      ((List.range n).map (fun j => (usable_frames_map m).get? j), ⟨m, n⟩)) ∧
    ((List.range (usable_frames_map m).length).map
        (fun j => (usable_frames_map m).get? j) =
      (usable_frames_map m).map some) ∧
    (∀ f ∈ usable_frames_map m, (4096 : Nat) ∣ f) ∧
    List.Pairwise (fun f g => f + 4096 ≤ g ∨ g + 4096 ≤ f)
      (usable_frames_map m) ∧
    (∀ i, (usable_frames_map m).length ≤ i →
      (usable_frames_map m).get? i = none) := by
  have hall : ∀ x ∈ (m.filter (fun r => r.usable)).flatMap
      (fun r => step_by_4096 r.start_addr r.end_addr),
      containing_address x = x := by
    intro x hx
    rcases List.mem_flatMap.mp hx with ⟨r, hr, hxr⟩
    rcases step_elems hxr with ⟨i, _, rfl⟩
    exact containing_address_of_dvd ⟨r.start_frame + i, by ring⟩
  have husable : usable_frames_map m =
      (m.filter (fun r => r.usable)).flatMap
        (fun r => step_by_4096 r.start_addr r.end_addr) := by
    unfold usable_frames_map
    calc ((m.filter (fun r => r.usable)).flatMap
          (fun r => step_by_4096 r.start_addr r.end_addr)).map
            containing_address
        = ((m.filter (fun r => r.usable)).flatMap
          (fun r => step_by_4096 r.start_addr r.end_addr)).map id :=
          List.map_congr_left (fun x hx => hall x hx)
      _ = _ := List.map_id _
  refine ⟨?_, range_length_map_getq _, ?_, ?_, ?_⟩
  · intro n
    have h := allocate_frames_eq m n 0
    simpa using h
  · intro f hf
    rw [husable] at hf
    rcases List.mem_flatMap.mp hf with ⟨r, hr, hfr⟩
    rcases step_elems hfr with ⟨i, _, rfl⟩
    exact ⟨r.start_frame + i, by ring⟩
  · rw [husable]
    refine pairwise_bind_of ?_ ?_
    · intro r hr
      unfold step_by_4096
      rw [List.pairwise_map]
      refine (List.pairwise_lt_range _).imp ?_
      intro i j hij
      left
      omega
    · refine hdisj.imp ?_
      intro r r2 hrel x hx y hy
      rcases step_elems hx with ⟨i, hi, rfl⟩
      rcases step_elems hy with ⟨j, hj, rfl⟩
      rcases hrel with h | h
      · left
        have h1 : r.start_frame + i + 1 ≤ r.end_frame := by omega
        have h2 : r2.start_frame ≤ r2.start_frame + j := by omega
        calc (r.start_frame + i) * 4096 + 4096
            = (r.start_frame + i + 1) * 4096 := by ring
          _ ≤ r.end_frame * 4096 := Nat.mul_le_mul_right _ h1
          _ ≤ r2.start_frame * 4096 := Nat.mul_le_mul_right _ h
          _ ≤ (r2.start_frame + j) * 4096 := Nat.mul_le_mul_right _ h2
      · right
        have h1 : r2.start_frame + j + 1 ≤ r2.end_frame := by omega
        have h2 : r.start_frame ≤ r.start_frame + i := by omega
        calc (r2.start_frame + j) * 4096 + 4096
            = (r2.start_frame + j + 1) * 4096 := by ring
          _ ≤ r2.end_frame * 4096 := Nat.mul_le_mul_right _ h1
          _ ≤ r.start_frame * 4096 := Nat.mul_le_mul_right _ h
          _ ≤ (r.start_frame + i) * 4096 := Nat.mul_le_mul_right _ h2
  · intro i hi
    exact List.get?_eq_none.mpr hi

/-- Concrete three-region memory map (two usable regions, three usable
frames) for the frame-allocator witness. -/
def witnessMap : List MemoryRegion :=
  [⟨0, 2, true⟩, ⟨5, 6, false⟩, ⟨8, 9, true⟩]

/-- Witness for C7 on `witnessMap`. -/
theorem frame_allocator_correct_witness :
    (∀ n, allocate_frames ⟨witnessMap, 0⟩ n =
      ((List.range n).map (fun j => (usable_frames_map witnessMap).get? j),
       ⟨witnessMap, n⟩)) ∧
    ((List.range (usable_frames_map witnessMap).length).map
        (fun j => (usable_frames_map witnessMap).get? j) =
      (usable_frames_map witnessMap).map some) ∧
    (∀ f ∈ usable_frames_map witnessMap, (4096 : Nat) ∣ f) ∧
    List.Pairwise (fun f g => f + 4096 ≤ g ∨ g + 4096 ≤ f)
      (usable_frames_map witnessMap) ∧
    (∀ i, (usable_frames_map witnessMap).length ≤ i →
      (usable_frames_map witnessMap).get? i = none) :=
  frame_allocator_correct witnessMap (by decide)

end RustOs
